import Mathlib

/-!
Verification of the Ninja-file generation core of kati (`src/ninja.cc`).

Strings are modelled as `List Char`; `std::string::npos`-style searches
become `Option Nat`.  Each definition is a direct translation of the
corresponding C++ function; deviations (fuel for a C++ `while` loop or
pointer-chasing recursion, `Option` results standing for out-of-bounds
accesses / fatal `ERROR` exits) are noted in the doc comments.
-/

namespace Kati

/-- C locale `isspace`: space, \t, \n, \v, \f, \r. -/
def isSpaceChar (c : Char) : Bool :=
  c = ' ' || c = '\t' || c = '\n' || c = Char.ofNat 11 || c = Char.ofNat 12 || c = '\r'

/-- Whitespace recognized by `TrimLeftSpace` and by the token delimiter
`find_first_of(" \t")` in `FindCommandLineFlagWithArg`: space and tab. -/
def isWsTok (c : Char) : Bool :=
  c = ' ' || c = '\t'

/-- Modelled from the spec: `TrimLeftSpace` (from the strutil helpers, not
under `src/`) removes leading whitespace; the token delimiters used by the
flag parser are space and tab. -/
def trimLeftSpace (s : List Char) : List Char :=
  s.dropWhile isWsTok

/-- `std::string::find(pat)`: index of the first occurrence of `pat` as a
contiguous substring, `none` when there is none (npos). -/
def findSub : List Char → List Char → Option Nat
  | s, pat =>
    if pat.isPrefixOf s then some 0
    else
      match s with
      | [] => none
      | _ :: t => (findSub t pat).map (· + 1)

/-- `cmd.find(pat) != npos`. -/
def containsSub (s pat : List Char) : Bool :=
  (findSub s pat).isSome

/-- `s.find_first_of(set)`. -/
def findFirstOf (s set : List Char) : Option Nat :=
  s.findIdx? (fun c => set.contains c)

/-- `FindCommandLineFlag` (ninja.cc:41): the flag position, with a match at
offset 0 rejected (mirrors the requirement that the flag be preceded by
whitespace). -/
def findCommandLineFlag (cmd name : List Char) : Option Nat :=
  match findSub cmd name with
  | none => none
  | some 0 => none
  | some i => some i

/-- The `while (index != npos)` loop of `FindCommandLineFlagWithArg`
(ninja.cc:55-59), modelled with a fuel argument: every iteration removes at
least `name.length ≥ 1` characters from `val`, so fuel `val.length + 1` is
enough (certified by `flagArgLoop_eq` below, which recovers the loop's
fixpoint equation for the canonical fuel). -/
def flagArgLoopF (name : List Char) : Nat → List Char → List Char
  | 0, val => val
  | fuel + 1, val =>
    match findSub val name with
    | none => val
    | some i => flagArgLoopF name fuel (trimLeftSpace (val.drop (i + name.length)))

/-- The canonical (sufficient-fuel) instance of the flag loop. -/
def flagArgLoop (name val : List Char) : List Char :=
  flagArgLoopF name (val.length + 1) val

/-- `FindCommandLineFlagWithArg` (ninja.cc:48): find the flag, then skip
ahead while further occurrences are found in the (left-trimmed) tail, and
return the token up to the next space/tab. -/
def findCommandLineFlagWithArg (cmd name : List Char) : List Char :=
  match findCommandLineFlag cmd name with
  | none => []
  | some index =>
    let val := flagArgLoop name (trimLeftSpace (cmd.drop (index + name.length)))
    val.takeWhile (fun c => !(isWsTok c))

/-- Modelled from the spec: `StripExt` (strutil, not under `src/`) strips
the trailing extension, i.e. drops everything from the last `.` on. -/
def stripExt (s : List Char) : List Char :=
  match s.reverse.findIdx? (fun c => c = '.') with
  | none => s
  | some k => s.take (s.length - 1 - k)

/-- Modelled from the spec: `Basename` (strutil, not under `src/`) keeps
everything after the last `/`. -/
def basename (s : List Char) : List Char :=
  match s.reverse.findIdx? (fun c => c = '/') with
  | none => s
  | some k => s.drop (s.length - k)

/-- `GetDepfileFromCommandImpl` (ninja.cc:95).  Returns the depfile path
when the ` -MD`/` -MMD` and ` -c` flags are present; prefers the ` -MF`
argument, falling back to the ` -o` argument with its extension replaced by
`.d`.  The `o.empty()` branch logs an error and returns false; per the
spec's error taxonomy ("Reported; emission proceeds without depfile") it is
modelled as `none`. -/
def getDepfileFromCommandImpl (cmd : List Char) : Option (List Char) :=
  if (findCommandLineFlag cmd (" -MD".data) = none ∧
        findCommandLineFlag cmd (" -MMD".data) = none) ∨
      findCommandLineFlag cmd (" -c".data) = none then
    none
  else
    let mf := findCommandLineFlagWithArg cmd (" -MF".data)
    if mf ≠ [] then some mf
    else
      let o := findCommandLineFlagWithArg cmd (" -o".data)
      if o = [] then none
      else some (stripExt o ++ (".d".data))

/-- Result of `GetDepfileFromCommand`: `fatal` models the abort paths (the
`CHECK` on an empty command, and the `ERROR` + `cmd->erase(npos, …)` when
the `; rm -f <depfile>` pattern expected by the `.P` quirk is missing —
fatal either as an `ERROR` exit or as out-of-bounds `erase`);
`noDepfile` is `return false` (command unchanged); `depfile cmd out` is
`return true` with the mutated command and the reported depfile. -/
inductive DepfileResult where
  | fatal : DepfileResult
  | noDepfile : List Char → DepfileResult
  | depfile : List Char → List Char → DepfileResult
deriving DecidableEq

/-- `GetDepfileFromCommand` (ninja.cc:119) with its three Android quirks:
`bin/llvm-rs-cc ` suppression, the `.P`-file path that erases
`; rm -f <depfile>` from the command, the `.s`-assembler suppression, and
the final mutation appending `&& cp <d> <d>.tmp ` and reporting
`<d>.tmp`. -/
def getDepfileFromCommand (cmd : List Char) : DepfileResult :=
  if cmd = [] then .fatal
  else
    match getDepfileFromCommandImpl cmd with
    | none => .noDepfile cmd
    | some out =>
      if containsSub cmd ("bin/llvm-rs-cc ".data) then .noDepfile cmd
      else
        let p := stripExt out ++ (".P".data)
        if containsSub cmd p then
          let rmf := ("; rm -f ".data) ++ out
          match findSub cmd rmf with
          | none => .fatal
          | some found => .depfile (cmd.take found ++ cmd.drop (found + rmf.length)) out
        else
          let asfile := '/' :: (stripExt (basename out) ++ (".s".data))
          if containsSub cmd asfile then .noDepfile cmd
          else
            .depfile (cmd ++ ("&& cp ".data) ++ out ++ [' '] ++ out ++ (".tmp ".data))
                     (out ++ (".tmp".data))

/-- `GetGomaccPosForAndroidCompileCommand` (ninja.cc:72), with fuel for the
recursion on `cmdline.substr(index)`: every recursive step drops
`index + 1 ≥ 1` characters, so fuel `cmdline.length + 1` is enough
(certified by `gomaccAux_eq` below). -/
def gomaccAux : Nat → List Char → Option Nat
  | 0, _ => none
  | fuel + 1, cmdline =>
    match cmdline.findIdx? (fun c => c = ' ') with
    | none => none
    | some index =>
      let cmd := cmdline.take index
      if (("ccache".data)).isSuffixOf cmd then
        match gomaccAux fuel (cmdline.drop (index + 1)) with
        | none => none
        | some pos => some (pos + (index + 1))
      else
        if (("prebuilts/".data)).isPrefixOf cmd then
          let c1 := cmd.drop (("prebuilts/".data)).length
          let c2? : Option (List Char) :=
            if (("gcc/".data)).isPrefixOf c1 then some (c1.drop (("gcc/".data)).length)
            else if (("clang/".data)).isPrefixOf c1 then some (c1.drop (("clang/".data)).length)
            else none
          match c2? with
          | none => none
          | some c2 =>
            if !((("gcc".data)).isSuffixOf c2) && !((("g++".data)).isSuffixOf c2) &&
                !((("clang".data)).isSuffixOf c2) && !((("clang++".data)).isSuffixOf c2) then
              none
            else
              if containsSub (cmdline.drop index) (" -c ".data) then some 0 else none
        else none

/-- The canonical (sufficient-fuel) `GetGomaccPosForAndroidCompileCommand`. -/
def getGomaccPosForAndroidCompileCommand (cmdline : List Char) : Option Nat :=
  gomaccAux (cmdline.length + 1) cmdline

/-- `EscapeBuildTarget` (ninja.cc:451): prefix `$`, `:` and space with `$`;
unchanged when none is present. -/
def escapeBuildTarget (s : List Char) : List Char :=
  if findFirstOf s ("$: ".data) = none then s
  else s.flatMap (fun c => if c = '$' ∨ c = ':' ∨ c = ' ' then ['$', c] else [c])

/-- The escape loop of `EscapeShell` (ninja.cc:472-496), carrying the
`lastDollar` flag. -/
def escapeShellLoop : List Char → Bool → List Char
  | [], _ => []
  | c :: rest, lastDollar =>
    if c = '$' then
      if lastDollar then c :: escapeShellLoop rest false
      else '\\' :: c :: escapeShellLoop rest true
    else if c = Char.ofNat 96 ∨ c = '"' ∨ c = '!' ∨ c = '\\' then
      '\\' :: c :: escapeShellLoop rest false
    else c :: escapeShellLoop rest false

/-- `EscapeShell` (ninja.cc:469): returns the input unchanged when it holds
none of `$`, backquote, `!`, `\`, `"`, otherwise runs the escape loop. -/
def escapeShell (s : List Char) : List Char :=
  if findFirstOf s ("$`!\\\"".data) = none then s
  else escapeShellLoop s false

/-- `prev_backslash` update after each byte (ninja.cc:253-257): toggles on
`\`, clears on anything else. -/
def pbNext (c : Char) (pb : Bool) : Bool :=
  if c = '\\' then !pb else false

/-- The scan loop of `TranslateCommand` (ninja.cc:211-260): `buf` is the
caller's buffer being appended to, `pb`/`pc`/`q` are `prev_backslash`,
`prev_char` and the active quote (`none` for the C++ `quote == 0`). -/
def tcLoop : List Char → List Char → Bool → Char → Option Char → List Char
  | [], buf, _, _, _ => buf
  | c :: rest, buf, pb, pc, q =>
    if c = '#' then
      if q = none ∧ isSpaceChar pc then buf
      else tcLoop rest (buf ++ [c]) (pbNext c pb) c q
    else if c = '\'' ∨ c = '"' ∨ c = Char.ofNat 96 then
      let q' := match q with
        | some qc => if qc = c then none else some qc
        | none => if !pb then some c else none
      tcLoop rest (buf ++ [c]) (pbNext c pb) c q'
    else if c = '$' then
      tcLoop rest (buf ++ ['$', '$']) (pbNext c pb) c q
    else if c = '\n' then
      tcLoop rest (if pb then buf.dropLast else buf ++ [' ']) (pbNext c pb) c q
    else
      tcLoop rest (buf ++ [c]) (pbNext c pb) c q

/-- The trailing-strip loop of `TranslateCommand` (ninja.cc:262-267), on the
reversed buffer.  The C++ loop reads `(*cmd_buf)[cmd_buf->size()-1]` with no
emptiness check; when every byte has been stripped the next read is out of
bounds, modelled as `none`. -/
def stripTrailRev : List Char → Option (List Char)
  | [] => none
  | c :: rest =>
    if !(isSpaceChar c) && c ≠ ';' then some (c :: rest) else stripTrailRev rest

/-- `TranslateCommand` (ninja.cc:203): scan `inp` appending to `buf`, then
strip trailing whitespace/`;`.  Returns the new buffer and the emitted
slice `StringPiece(data + orig_size, size - orig_size)`; `none` models the
two undefined behaviours: the strip loop reading past the start of the
buffer, and the slice length underflowing when the strip ate below the
buffer's size at entry. -/
def translateCommand (inp buf : List Char) : Option (List Char × List Char) :=
  let origSize := buf.length
  let b := tcLoop inp buf false ' ' none
  match stripTrailRev b.reverse with
  | none => none
  | some r =>
    let b := r.reverse
    if b.length < origSize then none
    else some (b, b.drop origSize)

/-- The character loop of `GetDescriptionFromCommand` (ninja.cc:284-316). -/
def gdLoop : List Char → Bool → Option Char → List Char → Option (List Char)
  | [], _, _, acc => some acc
  | c :: rest, pb, q, acc =>
    if pb then gdLoop rest false q (acc ++ [c])
    else if c = '\\' then gdLoop rest true q (acc ++ [c])
    else
      match q with
      | some qc =>
        if c = qc then gdLoop rest false none acc
        else gdLoop rest false (some qc) (acc ++ [c])
      | none =>
        if c = '\'' ∨ c = '"' ∨ c = Char.ofNat 96 then gdLoop rest false (some c) acc
        else if c = '<' ∨ c = '>' ∨ c = '&' ∨ c = '|' ∨ c = ';' then none
        else gdLoop rest false none (acc ++ [c])

/-- `GetDescriptionFromCommand` (ninja.cc:273): requires the `echo ` prefix,
strips outer quotes, fails on shell metacharacters outside quotes. -/
def getDescriptionFromCommand (cmd : List Char) : Option (List Char) :=
  if (("echo ".data)).isPrefixOf cmd then gdLoop (cmd.drop 5) false none []
  else none

/-- The global configuration consumed by `GenShellScript`:
`g_detect_android_echo` and `g_goma_dir` (the latter `none` when unset). -/
structure NinjaCfg where
  detectAndroidEcho : Bool
  gomaDir : Option (List Char)
deriving DecidableEq

/-- An evaluated recipe line (command.h): the command text, the echo flag
(false when prefixed by `@`), and the ignore-error flag (`-` prefix). -/
structure Command where
  cmd : List Char
  echo : Bool
  ignoreError : Bool
deriving DecidableEq

/-- One iteration of the `GenShellScript` loop body (ninja.cc:329-373) for
command `c`: append the ` ; `/` && ` separator, skip leading whitespace,
open the subshell, translate, optionally capture the echo description,
substitute `true` for an empty slice or splice the gomacc wrapper, append
` ; true` when this is the last command and it ignores errors, close the
subshell.  `isLast` is the C++ pointer test `c == commands.back()` (the
evaluator allocates one object per command, so it is positional). -/
def gssStep (cfg : NinjaCfg) (multi isLast : Bool) (c : Command) (prevIgnore : Bool)
    (buf : List Char) (desc : Option (List Char)) (useGomacc : Bool) :
    Option (List Char × Option (List Char) × Bool) :=
  let buf := if buf ≠ [] then buf ++ (if prevIgnore then (" ; ".data) else (" && ".data))
             else buf
  let inp := c.cmd.dropWhile isSpaceChar
  let needsSubshell := multi && !(inp.head? = some '(')
  let buf := if needsSubshell then buf ++ ['('] else buf
  let cmdStart := buf.length
  match translateCommand inp buf with
  | none => none
  | some (buf1, translated) =>
    let capture := cfg.detectAndroidEcho && desc.isNone && !c.echo &&
                   (getDescriptionFromCommand translated).isSome
    let desc := if capture then getDescriptionFromCommand translated else desc
    let buf2 := if capture then buf1.take cmdStart else buf1
    let translated := if capture then [] else translated
    let step : List Char × Bool :=
      if translated = [] then (buf2 ++ ("true".data), useGomacc)
      else
        match cfg.gomaDir with
        | some d =>
          match getGomaccPosForAndroidCompileCommand translated with
          | some pos =>
            (buf2.take (cmdStart + pos) ++ d ++ ("/gomacc ".data) ++
               buf2.drop (cmdStart + pos), true)
          | none => (buf2, useGomacc)
        | none => (buf2, useGomacc)
    let buf4 := if isLast && c.ignoreError then step.1 ++ (" ; true".data) else step.1
    let buf5 := if needsSubshell then buf4 ++ [')'] else buf4
    some (buf5, desc, step.2)

/-- The per-command loop of `GenShellScript` (ninja.cc:328-374).  State:
`prevIgnore` is `should_ignore_error` (the previous command's flag), `buf`
is `cmd_buf`, `desc` is the captured description (`none` =
`!got_descritpion`), `useGomacc` accumulates `use_gomacc`. -/
def gssLoop (cfg : NinjaCfg) (multi : Bool) :
    List Command → Bool → List Char → Option (List Char) → Bool →
    Option (List Char × Option (List Char) × Bool)
  | [], _, buf, desc, useGomacc => some (buf, desc, useGomacc)
  | c :: rest, prevIgnore, buf, desc, useGomacc =>
    match gssStep cfg multi rest.isEmpty c prevIgnore buf desc useGomacc with
    | none => none
    | some (b, d, u) => gssLoop cfg multi rest c.ignoreError b d u

/-- `GenShellScript` (ninja.cc:322): compose the commands into one shell
line.  Returns the composed line, the optionally captured description, and
the C++ return value `g_goma_dir && !use_gomacc` (the local-pool request);
`none` propagates the undefined behaviour of `TranslateCommand`. -/
def genShellScript (cfg : NinjaCfg) (commands : List Command) :
    Option (List Char × Option (List Char) × Bool) :=
  (gssLoop cfg (commands.length > 1) commands false [] none false).map
    (fun r => (r.1, r.2.1, cfg.gomaDir.isSome && !r.2.2))

/-- A node of the resolved dependency graph (dep.h).  Node references are
arena indices into the ambient `List DepNode` (C++ uses `DepNode*`
pointers; arbitrary aliasing and cycles are representable).  `cmdsEmpty` is
`node->cmds.empty()` (unevaluated recipes, used by the suppression check);
`commands` is the external evaluator's result `ce_.Eval(node, &commands)`,
carried on the node since the evaluator is pure during emission. -/
structure DepNode where
  output : List Char
  deps : List Nat
  orderOnlys : List Nat
  cmdsEmpty : Bool
  commands : List Command
  isPhony : Bool
deriving DecidableEq

/-- One emitted stanza of the Ninja file.  Rule bodies (description,
depfile, command lines) are abstracted into the `rule` event since no claim
refers to their text; `build` carries the raw (unescaped) target and
prerequisite outputs — escaping happens in `renderLine`, mirroring the
`fprintf` calls. -/
inductive NinjaLine where
  | rule : List Char → NinjaLine
  | build : List Char → List Char → List (List Char) → List (List Char) → NinjaLine
  | defaultTarget : List Char → NinjaLine
  | shortcut : List Char → List Char → NinjaLine
deriving DecidableEq

/-- The text printed for each stanza's header line: `EmitBuild`
(ninja.cc:500) escapes targets with `EscapeBuildTarget`; the `default` line
(ninja.cc:612) and the shortcut line (ninja.cc:618) print the raw symbol
with `%s`. -/
def renderLine : NinjaLine → List Char
  | .rule name => ("rule ".data) ++ name ++ ['\n']
  | .build out ruleName deps oos =>
    ("build ".data) ++ escapeBuildTarget out ++ (": ".data) ++ ruleName ++
      (deps.flatMap (fun d => ' ' :: escapeBuildTarget d)) ++
      (if oos = [] then [] else (" ||".data) ++ oos.flatMap (fun d => ' ' :: escapeBuildTarget d)) ++
      ['\n']
  | .defaultTarget out => ('\n' :: ("default ".data)) ++ out ++ ['\n']
  | .shortcut base out => ("build ".data) ++ base ++ (": phony ".data) ++ out ++ ['\n']

/-- Emission state of `NinjaGenerator`: `done` is the `done_` set (insertion
list, membership by value — Symbols are interned so C++ identity equality is
string equality), `shortNames` the `short_names_` map as an association
list with unique keys, `ruleId` the `rule_id_` counter, `emitted` the
stanzas written so far. -/
structure EmitState where
  done : List (List Char)
  shortNames : List (List Char × List Char)
  ruleId : Nat
  emitted : List NinjaLine
deriving DecidableEq

def initState : EmitState := ⟨[], [], 0, []⟩

/-- Lookup in the `short_names_` association list. -/
def snLookup : List (List Char × List Char) → List Char → Option (List Char)
  | [], _ => none
  | p :: t, b => if p.1 = b then some p.2 else snLookup t b

/-- The `short_names_.emplace` with collision handling (ninja.cc:405-409):
insert `(base, output)`; if the key exists, overwrite its value with the
empty symbol `kEmptySym` (modelled as `[]`). -/
def snUpdate (base out : List Char) (sn : List (List Char × List Char)) :
    List (List Char × List Char) :=
  match snLookup sn base with
  | some _ => sn.map (fun p => if p.1 = base then (p.1, ([] : List Char)) else p)
  | none => sn ++ [(base, out)]

/-- The suppression predicate (ninja.cc:398-401). -/
def suppressed (n : DepNode) : Bool :=
  n.cmdsEmpty && n.deps.isEmpty && n.orderOnlys.isEmpty && !n.isPhony

/-- `GenRuleName` (ninja.cc:199): `rule<rule_id>`. -/
def genRuleName (id : Nat) : List Char :=
  ("rule".data) ++ (toString id).data

/-- The outputs printed for a node's dependencies in `EmitBuild`; every
index is valid in C++ (`DepNode*` is never null), `filterMap` skips any
out-of-range index. -/
def depsOutputs (g : List DepNode) (ids : List Nat) : List (List Char) :=
  ids.filterMap (fun i => (g.get? i).map (fun n => n.output))

/-- The emission body of `EmitNode` for a fresh, non-suppressed node
(ninja.cc:403-441): update `short_names_` when the basename differs from
the output, mint `rule<id>` when the evaluated commands are non-empty
(else the builtin `phony`), and write the build stanza. -/
def emitStep (g : List DepNode) (n : DepNode) (s : EmitState) : EmitState :=
  let base := basename n.output
  let s :=
    if base ≠ n.output then { s with shortNames := snUpdate base n.output s.shortNames }
    else s
  if n.commands = [] then
    { s with emitted := s.emitted ++
        [.build n.output ("phony".data) (depsOutputs g n.deps) (depsOutputs g n.orderOnlys)] }
  else
    { s with ruleId := s.ruleId + 1,
             emitted := s.emitted ++
        [.rule (genRuleName s.ruleId),
         .build n.output (genRuleName s.ruleId) (depsOutputs g n.deps)
           (depsOutputs g n.orderOnlys)] }

/-- Sequential emission over a list of node indices (the two `for` loops at
ninja.cc:443-448 and the top-level loop at ninja.cc:606-608). -/
def foldEmit (f : Nat → EmitState → Option EmitState) :
    List Nat → EmitState → Option EmitState
  | [], s => some s
  | i :: is, s =>
    match f i s with
    | none => none
    | some s' => foldEmit f is s'

/-- `EmitNode` (ninja.cc:389): insert the output into `done_` first
(returning on a revisit), check suppression, emit, then recurse on `deps`
and `order_onlys`.  The C++ recursion follows arbitrary (possibly cyclic)
pointer graphs; it is modelled with fuel, and `emitNode_isSome` below
proves fuel `g.length + 1` always suffices — the termination half of the
`done`-before-recursion invariant. -/
def emitNode (g : List DepNode) : Nat → Nat → EmitState → Option EmitState
  | 0, _, _ => none
  | fuel + 1, i, s =>
    match g.get? i with
    | none => some s
    | some n =>
      if s.done.contains n.output then some s
      else
        let s1 : EmitState := { s with done := n.output :: s.done }
        if suppressed n then some s1
        else
          match foldEmit (emitNode g fuel) n.deps (emitStep g n s1) with
          | none => none
          | some s2 => foldEmit (emitNode g fuel) n.orderOnlys s2

/-- The shortcut stanzas (ninja.cc:615-619): for every `short_names_` entry
whose value is non-empty and whose basename is not an emitted target. -/
def shortcutLines (s : EmitState) : List NinjaLine :=
  s.shortNames.filterMap (fun p =>
    if p.2 ≠ [] ∧ !(s.done.contains p.1) then some (.shortcut p.1 p.2) else none)

/-- `GenerateNinja` (ninja.cc:581), restricted to the stanzas the claims
talk about: the per-node rules/builds (ninja.cc:606-608), then — when the
caller did not ask for all targets — the `default` line naming the first
node's output (ninja.cc:610-613, with the fatal `CHECK(!nodes.empty())`
modelled as `none`), then the shortcut stanzas (ninja.cc:615-619).  The
header comments, env block, pool declaration and regen rules that precede
the node loop emit none of these stanza kinds and are omitted. -/
def generateNinja (g : List DepNode) (roots : List Nat) (buildAllTargets : Bool) :
    Option (EmitState × List NinjaLine) :=
  match foldEmit (emitNode g (g.length + 1)) roots initState with
  | none => none
  | some s =>
    if buildAllTargets then some (s, s.emitted ++ shortcutLines s)
    else
      match roots with
      | [] => none
      | r :: _ =>
        match g.get? r with
        | none => none
        | some n => some (s, s.emitted ++ [.defaultTarget n.output] ++ shortcutLines s)

/-! ### Spec-side definitions

The following definitions are written from the specification's words (not
from the source); they exist only to be compared with the source-derived
definitions above. -/

/-- Spec wording of the `escape_shell` per-character rules (spec §4.1): the
emitted chunk and the next `last_dollar` flag. -/
def escapeShellSpecStep (lastDollar : Bool) (c : Char) : List Char × Bool :=
  if c = Char.ofNat 96 ∨ c = '"' ∨ c = '!' ∨ c = '\\' then (['\\', c], false)
  else if c = '$' then
    if lastDollar then ([c], false) else (['\\', c], true)
  else ([c], false)

/-- Spec wording of the `escape_shell` pass: concatenate the per-character
chunks left to right. -/
def escapeShellSpecLoop : List Char → Bool → List Char
  | [], _ => []
  | c :: rest, ld => (escapeShellSpecStep ld c).1 ++ escapeShellSpecLoop rest (escapeShellSpecStep ld c).2

/-- Spec wording of `escape_shell` (spec §4.1): if the input contains none
of `$`, backquote, `!`, `\`, `"`, return it unchanged; otherwise run the
single left-to-right pass. -/
def escapeShellSpec (s : List Char) : List Char :=
  if s.all (fun c => !((("$`!\\\"".data)).contains c)) then s
  else escapeShellSpecLoop s false

/-- Spec wording of the claim C5 phrase "the whitespace-delimited token
that follows the last occurrence of the flag": the last position at which
the flag matches. -/
def findSubLast (s pat : List Char) : Option Nat :=
  ((List.range (s.length + 1)).filter (fun i => pat.isPrefixOf (s.drop i))).getLast?

/-- Spec wording of claim C5: the whitespace-delimited token following the
textually last occurrence of the flag. -/
def tokenAfterLastFlag (cmd flag : List Char) : List Char :=
  match findSubLast cmd flag with
  | none => []
  | some i =>
    ((cmd.drop (i + flag.length)).dropWhile isWsTok).takeWhile (fun c => !(isWsTok c))

/-- Spec wording of `gomacc_offset` (spec §4.4 / claim C8): skip a chain of
leading tokens each ending in `ccache` (adding the consumed offsets);
require the next token to begin with `prebuilts/gcc/` or `prebuilts/clang/`
and to end with one of `gcc`, `g++`, `clang`, `clang++` (a condition on
the whole token); require ` -c ` to occur in the remainder starting at that
token's first following space.  Fuel as in `gomaccAux`. -/
def gomaccSpecAux : Nat → List Char → Option Nat
  | 0, _ => none
  | fuel + 1, cmdline =>
    match cmdline.findIdx? (fun c => c = ' ') with
    | none => none
    | some index =>
      let tok := cmdline.take index
      if (("ccache".data)).isSuffixOf tok then
        (gomaccSpecAux fuel (cmdline.drop (index + 1))).map (fun pos => pos + (index + 1))
      else
        if ((("prebuilts/gcc/".data)).isPrefixOf tok ∨
              (("prebuilts/clang/".data)).isPrefixOf tok) ∧
            ((("gcc".data)).isSuffixOf tok ∨ (("g++".data)).isSuffixOf tok ∨
              (("clang".data)).isSuffixOf tok ∨ (("clang++".data)).isSuffixOf tok) ∧
            containsSub (cmdline.drop index) (" -c ".data) = true
        then some 0 else none

/-- The canonical spec-side recognizer. -/
def gomaccSpecOffset (cmdline : List Char) : Option Nat :=
  gomaccSpecAux (cmdline.length + 1) cmdline

/-! ### Definitions used by claim statements -/

/-- The raw outputs of the emitted `build` stanzas, in emission order (one
per non-suppressed node processed). -/
def buildOutputs (lines : List NinjaLine) : List (List Char) :=
  lines.filterMap (fun e =>
    match e with
    | .build o _ _ _ => some o
    | _ => none)

/-- Stanza kinds produced inside `EmitNode` (rule and build only). -/
def isNodeStanza : NinjaLine → Bool
  | .rule _ => true
  | .build _ _ _ _ => true
  | _ => false

/-- The number of distinct node outputs not yet in `done` — the measure
that shrinks at every productive `EmitNode` call. -/
def remaining (g : List DepNode) (done : List (List Char)) : Nat :=
  (((g.map (fun n => n.output)).dedup).filter (fun o => !(done.contains o))).length

/-- Output `o` is recorded in `short_names_` under key `b`: its basename is
`b` and differs from the full output (ninja.cc:404). -/
def contributesTo (o b : List Char) : Prop :=
  basename o = b ∧ o ≠ b

/-- The outputs of the non-suppressed nodes processed so far — each emitted
exactly one `build` stanza. -/
def processed (s : EmitState) : List (List Char) :=
  buildOutputs s.emitted

/-- The emission invariant maintained by `EmitNode`: processed outputs are
distinct and recorded in `done_`; only rule/build stanzas are emitted
inside the node walk; `short_names_` has unique keys; a non-empty value is
the unique processed contributor of its basename, the empty value marks a
collision of at least two; and every processed contributor has an entry. -/
def INV (s : EmitState) : Prop :=
  (processed s).Nodup ∧
  (∀ o, o ∈ processed s → o ∈ s.done) ∧
  (∀ e, e ∈ s.emitted → isNodeStanza e = true) ∧
  (s.shortNames.map Prod.fst).Nodup ∧
  (∀ b v, snLookup s.shortNames b = some v →
    (v ≠ [] → v ∈ processed s ∧ contributesTo v b ∧
      (∀ o, o ∈ processed s → contributesTo o b → o = v)) ∧
    (v = [] → ∃ o1 o2, o1 ∈ processed s ∧ o2 ∈ processed s ∧ o1 ≠ o2 ∧
      contributesTo o1 b ∧ contributesTo o2 b)) ∧
  (∀ o, o ∈ processed s → basename o ≠ o → snLookup s.shortNames (basename o) ≠ none)

/-! ### Supporting lemmas -/

theorem escapeShellLoop_eq_spec :
    ∀ (s : List Char) (ld : Bool), escapeShellLoop s ld = escapeShellSpecLoop s ld := by
  intro s
  induction s with
  | nil => intro ld; rfl
  | cons c rest ih =>
    intro ld
    by_cases h1 : c = '$'
    · have h2 : ¬(c = Char.ofNat 96 ∨ c = '"' ∨ c = '!' ∨ c = '\\') := by
        subst h1; decide
      cases ld <;>
        simp [escapeShellLoop, escapeShellSpecLoop, escapeShellSpecStep, h1, h2, ih]
    · by_cases h2 : c = Char.ofNat 96 ∨ c = '"' ∨ c = '!' ∨ c = '\\'
      · simp [escapeShellLoop, escapeShellSpecLoop, escapeShellSpecStep, h1, h2, ih]
      · simp [escapeShellLoop, escapeShellSpecLoop, escapeShellSpecStep, h1, h2, ih]

theorem findFirstOf_eq_none_iff (s set : List Char) :
    findFirstOf s set = none ↔ s.all (fun c => !(set.contains c)) = true := by
  simp [findFirstOf, List.findIdx?_eq_none_iff, List.all_eq_true]

/-- Claim C7: `EscapeShell` implements, in a single left-to-right pass, the
spec's escaping rules — backquote, `"`, `!`, `\` get a `\` prefix; `$` gets
one unless the previous emitted character was a `\`-escaped `$` (the
`lastDollar` flag), so `$$ ↦ \$$` and `$$$ ↦ \$$\$`; other bytes pass
verbatim; and inputs with none of the five special characters are returned
unchanged. -/
theorem C7_escapeShell_matches_spec :
    (∀ s, escapeShell s = escapeShellSpec s) ∧
    (∀ s, findFirstOf s (("$`!\\\"".data)) = none → escapeShell s = s) ∧
    escapeShell (("$$".data)) = (("\\$$".data)) ∧
    escapeShell (("$$$".data)) = (("\\$$\\$".data)) := by
  refine ⟨?_, ?_, by decide, by decide⟩
  · intro s
    unfold escapeShell escapeShellSpec
    by_cases h : findFirstOf s (("$`!\\\"".data)) = none
    · rw [if_pos h, if_pos ((findFirstOf_eq_none_iff _ _).mp h)]
    · rw [if_neg h, if_neg (fun hc => h ((findFirstOf_eq_none_iff _ _).mpr hc)),
        escapeShellLoop_eq_spec]
  · intro s h
    unfold escapeShell
    rw [if_pos h]

/-- Claim C7 witness: a character-wise plain string passes through
`EscapeShell` unchanged. -/
theorem C7_witness : escapeShell (("gcc -o foo foo.c".data)) = (("gcc -o foo foo.c".data)) :=
  C7_escapeShell_matches_spec.2.1 (("gcc -o foo foo.c".data)) (by decide)

/-- Claim C3 (code bug evidence): the trailing-strip phase of
`TranslateCommand` is not bounded by the buffer's size at entry.  On the
recipe line `;` with an empty caller buffer the strip loop empties the
buffer and then reads `(*cmd_buf)[size()-1]` with `size() == 0` (out of
bounds, modelled `none`); on the line `#x` with a preloaded buffer `"a "`
the translation emits nothing and the strip eats below the entry size.
The single-command recipe `;` reaches the first case through
`GenShellScript`.  A normal line translates fine. -/
theorem C3_translateCommand_strip_oob :
    translateCommand ((";".data)) [] = none ∧
    translateCommand (("#x".data)) (("a ".data)) = none ∧
    genShellScript ⟨false, none⟩ [⟨((";".data)), false, false⟩] = none ∧
    translateCommand (("foo".data)) [] = some ((("foo".data)), (("foo".data))) := by
  exact ⟨by decide, by decide, by decide, by decide⟩

/-- Claim C1 counterexample: with one node `a/foo` (phony, shortcut
`foo ↦ a/foo` recorded) and `build_all_targets == false`, the generated
file has the `default a/foo` line at index 1 and the shortcut stanza
`build foo: phony a/foo` at index 2 — the default line is written *before*
shortcut emission, not after it as the claim states. -/
theorem C1_counterexample :
    ∃ s lines,
      generateNinja [⟨(("a/foo".data)), [], [], true, [], true⟩] [0] false = some (s, lines) ∧
      lines.get? 1 = some (.defaultTarget (("a/foo".data))) ∧
      lines.get? 2 = some (.shortcut (("foo".data)) (("a/foo".data))) := by
  refine ⟨_, _, rfl, by decide, by decide⟩

/-- Claim C6 counterexample: two commands where the last one both ignores
errors and gets wrapped in subshell parentheses.  The composed line is
`(a) && (b ; true)`: the ` ; true` is appended *inside* the parentheses,
so the whole line does not end with ` ; true`. -/
theorem C6_counterexample :
    genShellScript ⟨false, none⟩
        [⟨(("a".data)), false, false⟩, ⟨(("b".data)), false, true⟩] =
      some ((("(a) && (b ; true)".data)), none, false) ∧
    (((" ; true".data))).isSuffixOf ((("(a) && (b ; true)".data))) = false := by
  exact ⟨by decide, by decide⟩

theorem isSuffixOf_append_of_eq (S t u : List Char) (h : t = u) :
    u.isSuffixOf (S ++ t) = true := by
  subst h
  rw [List.isSuffixOf_iff_suffix]
  exact List.suffix_append _ _

theorem gssStep_last_ignore (cfg : NinjaCfg) (multi : Bool) (c : Command) (pi : Bool)
    (buf : List Char) (desc : Option (List Char)) (ug : Bool)
    (b : List Char) (d : Option (List Char)) (u : Bool)
    (h : gssStep cfg multi true c pi buf desc ug = some (b, d, u))
    (hie : c.ignoreError = true) :
    (if multi && !((c.cmd.dropWhile isSpaceChar).head? = some '(')
     then (((" ; true)".data))).isSuffixOf b
     else (((" ; true".data))).isSuffixOf b) = true := by
  unfold gssStep at h
  dsimp only at h
  rw [hie] at h
  rw [show ((true && true)) = true from rfl] at h
  simp only [eq_self_iff_true, if_true] at h
  split at h
  · exact Option.noConfusion h
  · simp only [Option.some.injEq, Prod.mk.injEq] at h
    obtain ⟨hb, -, -⟩ := h
    by_cases hC : (multi && !((c.cmd.dropWhile isSpaceChar).head? = some '(')) = true
    · rw [if_pos hC]
      simp only [hC, eq_self_iff_true, if_true] at hb
      rw [← hb, List.append_assoc]
      exact isSuffixOf_append_of_eq _ _ _ (by decide)
    · rw [if_neg hC]
      rw [if_neg hC] at hb
      rw [← hb]
      exact isSuffixOf_append_of_eq _ _ _ (by decide)

theorem gssLoop_last_suffix (cfg : NinjaCfg) (multi : Bool) :
    ∀ (cs : List Command) (c : Command) (pi : Bool) (buf : List Char)
      (desc : Option (List Char)) (ug : Bool) (r : List Char × Option (List Char) × Bool),
      gssLoop cfg multi (cs ++ [c]) pi buf desc ug = some r →
      c.ignoreError = true →
      (if multi && !((c.cmd.dropWhile isSpaceChar).head? = some '(')
       then (((" ; true)".data))).isSuffixOf r.1
       else (((" ; true".data))).isSuffixOf r.1) = true := by
  intro cs
  induction cs with
  | nil =>
    intro c pi buf desc ug r h hie
    rw [List.nil_append] at h
    rw [show gssLoop cfg multi [c] pi buf desc ug =
          (match gssStep cfg multi true c pi buf desc ug with
           | none => none
           | some (b, d, u) => gssLoop cfg multi [] c.ignoreError b d u) from rfl] at h
    cases hst : gssStep cfg multi true c pi buf desc ug with
    | none =>
      rw [hst] at h
      exact Option.noConfusion h
    | some t =>
      rw [hst] at h
      obtain ⟨b, d, u⟩ := t
      have h' : some (b, d, u) = some r := h
      obtain rfl := Option.some.inj h'
      exact gssStep_last_ignore cfg multi c pi buf desc ug b d u hst hie
  | cons c' cs' ih =>
    intro c pi buf desc ug r h hie
    rw [List.cons_append] at h
    rw [show gssLoop cfg multi (c' :: (cs' ++ [c])) pi buf desc ug =
          (match gssStep cfg multi (cs' ++ [c]).isEmpty c' pi buf desc ug with
           | none => none
           | some (b, d, u) => gssLoop cfg multi (cs' ++ [c]) c'.ignoreError b d u) from rfl] at h
    cases hst : gssStep cfg multi (cs' ++ [c]).isEmpty c' pi buf desc ug with
    | none =>
      rw [hst] at h
      exact Option.noConfusion h
    | some t =>
      rw [hst] at h
      obtain ⟨b, d, u⟩ := t
      have h' : gssLoop cfg multi (cs' ++ [c]) c'.ignoreError b d u = some r := h
      exact ih c c'.ignoreError b d u r h' hie

/-- Claim C6 amended: when the last command of `GenShellScript` has
`ignore_error`, ` ; true` is appended to the composed line *before* the
closing subshell parenthesis — the line ends with ` ; true` when the last
recipe is not wrapped (single command, or its first non-whitespace
character is `(`), and with ` ; true)` when it is wrapped. -/
theorem C6_amended (cfg : NinjaCfg) (cs : List Command) (c : Command)
    (buf : List Char) (desc : Option (List Char)) (pool : Bool)
    (h : genShellScript cfg (cs ++ [c]) = some (buf, desc, pool))
    (hie : c.ignoreError = true) :
    (if (cs ++ [c]).length > 1 && !((c.cmd.dropWhile isSpaceChar).head? = some '(')
     then (((" ; true)".data))).isSuffixOf buf
     else (((" ; true".data))).isSuffixOf buf) = true := by
  unfold genShellScript at h
  cases hr : gssLoop cfg ((cs ++ [c]).length > 1) (cs ++ [c]) false [] none false with
  | none =>
    rw [hr] at h
    exact Option.noConfusion h
  | some r =>
    rw [hr] at h
    have h' : some (r.1, r.2.1, cfg.gomaDir.isSome && !r.2.2) = some (buf, desc, pool) := h
    have hb : r.1 = buf := congrArg Prod.fst (Option.some.inj h')
    have := gssLoop_last_suffix cfg ((cs ++ [c]).length > 1) cs c false [] none false r hr hie
    rw [hb] at this
    exact this

/-! #### Characterization of `findSub` (`std::string::find`) -/

theorem findSub_some_le :
    ∀ (s pat : List Char) (i : Nat), findSub s pat = some i → i + pat.length ≤ s.length := by
  intro s
  induction s with
  | nil =>
    intro pat i h
    unfold findSub at h
    split at h
    next hp =>
      cases h
      simpa using (List.isPrefixOf_iff_prefix.mp hp).length_le
    next => exact Option.noConfusion h
  | cons c t ih =>
    intro pat i h
    unfold findSub at h
    split at h
    next hp =>
      cases h
      simpa using (List.isPrefixOf_iff_prefix.mp hp).length_le
    next =>
      have h0 : Option.map (fun x => x + 1) (findSub t pat) = some i := h
      cases hf : findSub t pat with
      | none =>
        rw [hf] at h0
        exact Option.noConfusion h0
      | some j =>
        rw [hf] at h0
        have h' : some (j + 1) = some i := h0
        obtain rfl := Option.some.inj h'
        have := ih pat j hf
        simp only [List.length_cons]
        omega

theorem findSub_some_prefix :
    ∀ (s pat : List Char) (i : Nat), findSub s pat = some i → pat <+: s.drop i := by
  intro s
  induction s with
  | nil =>
    intro pat i h
    unfold findSub at h
    split at h
    next hp =>
      cases h
      exact List.isPrefixOf_iff_prefix.mp hp
    next => exact Option.noConfusion h
  | cons c t ih =>
    intro pat i h
    unfold findSub at h
    split at h
    next hp =>
      cases h
      exact List.isPrefixOf_iff_prefix.mp hp
    next =>
      have h0 : Option.map (fun x => x + 1) (findSub t pat) = some i := h
      cases hf : findSub t pat with
      | none =>
        rw [hf] at h0
        exact Option.noConfusion h0
      | some j =>
        rw [hf] at h0
        have h' : some (j + 1) = some i := h0
        obtain rfl := Option.some.inj h'
        rw [List.drop_succ_cons]
        exact ih pat j hf

theorem findSub_none_not_prefix :
    ∀ (s pat : List Char), findSub s pat = none → ∀ j, ¬ pat <+: s.drop j := by
  intro s
  induction s with
  | nil =>
    intro pat h j hpre
    unfold findSub at h
    split at h
    next => exact Option.noConfusion h
    next hp =>
      rw [List.drop_nil] at hpre
      exact hp (List.isPrefixOf_iff_prefix.mpr hpre)
  | cons c t ih =>
    intro pat h j hpre
    unfold findSub at h
    split at h
    next => exact Option.noConfusion h
    next hp =>
      have h0 : Option.map (fun x => x + 1) (findSub t pat) = none := h
      cases hf : findSub t pat with
      | none =>
        cases j with
        | zero => exact hp (List.isPrefixOf_iff_prefix.mpr hpre)
        | succ j' =>
          rw [List.drop_succ_cons] at hpre
          exact ih pat hf j' hpre
      | some m =>
        rw [hf] at h0
        exact Option.noConfusion h0

theorem findSub_eq_some_of :
    ∀ (s pat : List Char) (i : Nat), pat <+: s.drop i → (∀ j, j < i → ¬ pat <+: s.drop j) →
      findSub s pat = some i := by
  intro s
  induction s with
  | nil =>
    intro pat i hpre hmin
    rw [List.drop_nil] at hpre
    have hi : i = 0 := by
      by_contra hne
      exact hmin 0 (Nat.pos_of_ne_zero hne) (by rw [List.drop_nil]; exact hpre)
    subst hi
    unfold findSub
    rw [if_pos (List.isPrefixOf_iff_prefix.mpr hpre)]
  | cons c t ih =>
    intro pat i hpre hmin
    by_cases hp : pat.isPrefixOf (c :: t) = true
    · have hi : i = 0 := by
        by_contra hne
        exact hmin 0 (Nat.pos_of_ne_zero hne) (List.isPrefixOf_iff_prefix.mp hp)
      subst hi
      unfold findSub
      rw [if_pos hp]
    · have hi : i ≠ 0 := by
        intro h0
        subst h0
        exact hp (List.isPrefixOf_iff_prefix.mpr hpre)
      obtain ⟨i', rfl⟩ := Nat.exists_eq_succ_of_ne_zero hi
      rw [List.drop_succ_cons] at hpre
      have hrec := ih pat i' hpre (fun j hj => by
        have := hmin (j + 1) (by omega)
        rw [List.drop_succ_cons] at this
        exact this)
      unfold findSub
      rw [if_neg hp]
      show Option.map (fun x => x + 1) (findSub t pat) = some (i' + 1)
      rw [hrec]
      rfl

theorem findSub_eq_none_of :
    ∀ (s pat : List Char), (∀ j, ¬ pat <+: s.drop j) → findSub s pat = none := by
  intro s
  induction s with
  | nil =>
    intro pat h
    unfold findSub
    rw [if_neg (fun hp => h 0 (by
      rw [List.drop_nil]
      exact List.isPrefixOf_iff_prefix.mp hp))]
  | cons c t ih =>
    intro pat h
    unfold findSub
    rw [if_neg (show ¬ pat.isPrefixOf (c :: t) = true from
      fun hp => h 0 (by rw [List.drop_zero]; exact List.isPrefixOf_iff_prefix.mp hp))]
    have hrec := ih pat (fun j => by
      have := h (j + 1)
      rw [List.drop_succ_cons] at this
      exact this)
    show Option.map (fun x => x + 1) (findSub t pat) = none
    rw [hrec]
    rfl

theorem prefix_of_append_of_length_le (p a b : List Char) (h : p <+: a ++ b)
    (hl : p.length ≤ a.length) : p <+: a := by
  rw [List.prefix_iff_eq_take] at h ⊢
  conv_lhs => rw [h]
  exact List.take_append_of_le_length hl

theorem prefix_head_ne (p l : List Char) (cp cl : Char) (hp : p.head? = some cp)
    (hl : l.head? = some cl) (hne : cp ≠ cl) : ¬ p <+: l := by
  intro h
  obtain ⟨s, rfl⟩ := h
  cases p with
  | nil => exact Option.noConfusion hp
  | cons a p' =>
    have h1 : a = cp := Option.some.inj hp
    have h2 : a = cl := Option.some.inj hl
    exact hne (h1 ▸ h2 ▸ rfl)

theorem not_prefix_inside_token (p t r : List Char) (hp : p.head? = some ' ')
    (ht : ∀ c ∈ t, isWsTok c = false) :
    ∀ j, j < t.length → ¬ p <+: (t ++ r).drop j := by
  intro j hj hpre
  rw [List.drop_append_of_le_length (Nat.le_of_lt hj)] at hpre
  rw [List.drop_eq_get_cons hj] at hpre
  have hhead : (t.drop j ++ r).head? = some (t.get ⟨j, hj⟩) := by
    rw [List.drop_eq_get_cons hj]
    rfl
  rw [List.drop_eq_get_cons hj] at hhead
  have hws := ht (t.get ⟨j, hj⟩) (List.get_mem t j hj)
  exact prefix_head_ne p _ ' ' (t.get ⟨j, hj⟩) hp hhead
    (fun hsp => by
      rw [← hsp] at hws
      simp [isWsTok] at hws) hpre

theorem not_prefix_all_drops (p r : List Char) (hp : p ≠ [])
    (hd : ∀ k, k < r.length → p.isPrefixOf (r.drop k) = false) :
    ∀ k, ¬ p <+: r.drop k := by
  intro k hpre
  by_cases hk : k < r.length
  · rw [← List.isPrefixOf_iff_prefix] at hpre
    rw [hd k hk] at hpre
    exact Bool.noConfusion hpre
  · rw [List.drop_eq_nil_of_le (Nat.le_of_not_lt hk)] at hpre
    exact hp (List.prefix_nil.mp hpre)

theorem not_prefix_append_all (p t r : List Char) (hph : p.head? = some ' ')
    (ht : ∀ c ∈ t, isWsTok c = false) (hr : ∀ k, ¬ p <+: r.drop k) :
    ∀ j, ¬ p <+: (t ++ r).drop j := by
  intro j hpre
  by_cases hj : j < t.length
  · exact not_prefix_inside_token p t r hph ht j hj hpre
  · have hj' := Nat.le_of_not_lt hj
    have heq : (t ++ r).drop j = r.drop (j - t.length) := by
      calc (t ++ r).drop j = (t ++ r).drop (t.length + (j - t.length)) := by
            rw [Nat.add_sub_cancel' hj']
        _ = r.drop (j - t.length) := List.drop_append _
    rw [heq] at hpre
    exact hr _ hpre

theorem exists_prefix_drop_append (p a b : List Char) (h : ∃ k, p <+: b.drop k) :
    ∃ k, p <+: (a ++ b).drop k := by
  obtain ⟨k, hk⟩ := h
  exact ⟨a.length + k, by rw [List.drop_append]; exact hk⟩

theorem trimLeftSpace_length_le (x : List Char) : (trimLeftSpace x).length ≤ x.length :=
  List.Sublist.length_le (List.dropWhile_sublist _)

theorem trimLeftSpace_space_cons (x : List Char) :
    trimLeftSpace (' ' :: x) = trimLeftSpace x := by
  simp [trimLeftSpace, List.dropWhile_cons, isWsTok]

theorem trimLeftSpace_no_ws (x : List Char)
    (h : ∀ c, x.head? = some c → isWsTok c = false) : trimLeftSpace x = x := by
  cases x with
  | nil => rfl
  | cons c t =>
    simp [trimLeftSpace, List.dropWhile_cons, h c rfl]

theorem takeWhile_append_of_all (p : Char → Bool) (a b : List Char)
    (ha : ∀ c ∈ a, p c = true) : (a ++ b).takeWhile p = a ++ b.takeWhile p := by
  induction a with
  | nil => simp
  | cons c t ih =>
    have h1 := ha c (by simp)
    simp [List.takeWhile_cons, h1, ih (fun x hx => ha x (by simp [hx]))]

/-- Any two sufficient fuels give the flag loop the same result: each
iteration shortens `val` by at least `name.length ≥ 1` characters. -/
theorem flagArgLoopF_congr (name : List Char) (hn : name ≠ []) :
    ∀ (f1 : Nat) (val : List Char), val.length < f1 → ∀ f2, val.length < f2 →
      flagArgLoopF name f1 val = flagArgLoopF name f2 val := by
  intro f1
  induction f1 with
  | zero => intro val h; omega
  | succ f1 ih =>
    intro val hval f2 hf2
    cases f2 with
    | zero => omega
    | succ f2 =>
      show (match findSub val name with
            | none => val
            | some i => flagArgLoopF name f1 (trimLeftSpace (val.drop (i + name.length)))) =
           (match findSub val name with
            | none => val
            | some i => flagArgLoopF name f2 (trimLeftSpace (val.drop (i + name.length))))
      cases hfs : findSub val name with
      | none => rfl
      | some i =>
        have hle := findSub_some_le val name i hfs
        have hn1 : 1 ≤ name.length := by
          cases name with
          | nil => exact absurd rfl hn
          | cons a b => simp
        have hlen : (trimLeftSpace (val.drop (i + name.length))).length < val.length := by
          have h1 := trimLeftSpace_length_le (val.drop (i + name.length))
          rw [List.length_drop] at h1
          omega
        exact ih _ (by omega) f2 (by omega)

/-- The fixpoint equation of the `FindCommandLineFlagWithArg` loop: the
canonical-fuel instance satisfies exactly the C++ `while` recurrence. -/
theorem flagArgLoop_eq (name val : List Char) (hn : name ≠ []) :
    flagArgLoop name val =
      match findSub val name with
      | none => val
      | some i => flagArgLoop name (trimLeftSpace (val.drop (i + name.length))) := by
  unfold flagArgLoop
  show (match findSub val name with
        | none => val
        | some i => flagArgLoopF name val.length (trimLeftSpace (val.drop (i + name.length)))) =
       _
  cases hfs : findSub val name with
  | none => rfl
  | some i =>
    have hle := findSub_some_le val name i hfs
    have hn1 : 1 ≤ name.length := by
      cases name with
      | nil => exact absurd rfl hn
      | cons a b => simp
    have hlen : (trimLeftSpace (val.drop (i + name.length))).length < val.length := by
      have h1 := trimLeftSpace_length_le (val.drop (i + name.length))
      rw [List.length_drop] at h1
      omega
    exact flagArgLoopF_congr name hn val.length _ hlen _ (by omega)

/-- The flag scan on a command with two well-separated ` -MF` flags: the
first occurrence of the flag is at offset 7, after it the loop jumps once
and lands on the argument of the last occurrence. -/
theorem flagArg_two_tokens (t1 t2 : List Char) (h1 : t1 ≠ []) (h2 : t2 ≠ [])
    (h3 : ∀ c ∈ t1, isWsTok c = false) (h4 : ∀ c ∈ t2, isWsTok c = false) :
    findCommandLineFlagWithArg
        ((("gcc -MD -MF ".data)) ++ (t1 ++ (((" -MF ".data)) ++ (t2 ++ ((" -c x".data))))))
        ((" -MF".data)) = t2 := by
  have hnf : ((" -MF".data) : List Char) ≠ [] := by decide
  have hLlen : (("gcc -MD -MF ".data) : List Char).length = 12 := rfl
  have hFlen : ((" -MF".data) : List Char).length = 4 := rfl
  -- the first occurrence of " -MF" in the whole command is at offset 7
  have hA : findSub
      ((("gcc -MD -MF ".data)) ++ (t1 ++ (((" -MF ".data)) ++ (t2 ++ ((" -c x".data))))))
      ((" -MF".data)) = some 7 := by
    apply findSub_eq_some_of
    · rw [List.drop_append_of_le_length (by omega)]
      exact (List.isPrefixOf_iff_prefix.mp (by decide :
        ((" -MF".data)).isPrefixOf ((("gcc -MD -MF ".data)).drop 7) = true)).trans
        (List.prefix_append _ _)
    · intro j hj hpre
      rw [List.drop_append_of_le_length (by omega)] at hpre
      have hsh := prefix_of_append_of_length_le _ _ _ hpre
        (by rw [List.length_drop, hLlen, hFlen]; omega)
      have htab : ∀ j', j' < 7 →
          ((" -MF".data)).isPrefixOf ((("gcc -MD -MF ".data)).drop j') = false := by decide
      rw [← List.isPrefixOf_iff_prefix] at hsh
      rw [htab j hj] at hsh
      exact Bool.noConfusion hsh
  -- after the first occurrence, the trimmed tail starts with t1
  obtain ⟨c1, t1', rfl⟩ := List.exists_cons_of_ne_nil h1
  have htrim0 : trimLeftSpace
      (((("gcc -MD -MF ".data)) ++
          ((c1 :: t1') ++ (((" -MF ".data)) ++ (t2 ++ ((" -c x".data)))))).drop
        (7 + ((" -MF".data)).length)) =
      (c1 :: t1') ++ (((" -MF ".data)) ++ (t2 ++ ((" -c x".data)))) := by
    rw [List.drop_append_of_le_length (by decide)]
    rw [show ((("gcc -MD -MF ".data) : List Char)).drop (7 + ((" -MF".data)).length) =
        [' '] from rfl]
    rw [show (([' '] : List Char) ++
        ((c1 :: t1') ++ (((" -MF ".data)) ++ (t2 ++ ((" -c x".data)))))) =
        ' ' :: ((c1 :: t1') ++ (((" -MF ".data)) ++ (t2 ++ ((" -c x".data))))) from rfl]
    rw [trimLeftSpace_space_cons]
    exact trimLeftSpace_no_ws _ (fun c hc => by
      rw [List.cons_append] at hc
      have hcc : c1 = c := Option.some.inj hc
      subst hcc
      exact h3 c1 (by simp))
  -- the loop finds the second occurrence right after t1
  have hD : findSub ((c1 :: t1') ++ (((" -MF ".data)) ++ (t2 ++ ((" -c x".data)))))
      ((" -MF".data)) = some (c1 :: t1').length := by
    apply findSub_eq_some_of
    · rw [List.drop_left]
      exact (List.isPrefixOf_iff_prefix.mp (by decide :
        ((" -MF".data)).isPrefixOf ((" -MF ".data)) = true)).trans (List.prefix_append _ _)
    · exact not_prefix_inside_token _ _ _ rfl h3
  -- after the second occurrence, the trimmed tail is t2 ++ " -c x"
  obtain ⟨c2, t2', rfl⟩ := List.exists_cons_of_ne_nil h2
  have htrim1 : trimLeftSpace
      (((c1 :: t1') ++ (((" -MF ".data)) ++ ((c2 :: t2') ++ ((" -c x".data))))).drop
        ((c1 :: t1').length + ((" -MF".data)).length)) =
      (c2 :: t2') ++ ((" -c x".data)) := by
    rw [List.drop_append]
    rw [show (((" -MF ".data)) ++ ((c2 :: t2') ++ ((" -c x".data)))).drop ((" -MF".data)).length =
        ' ' :: ((c2 :: t2') ++ ((" -c x".data))) from by
      rw [List.drop_append_of_le_length (by decide)]
      rfl]
    rw [trimLeftSpace_space_cons]
    exact trimLeftSpace_no_ws _ (fun c hc => by
      rw [List.cons_append] at hc
      have hcc : c2 = c := Option.some.inj hc
      subst hcc
      exact h4 c2 (by simp))
  -- no further occurrence in t2 ++ " -c x"
  have hF : findSub ((c2 :: t2') ++ ((" -c x".data))) ((" -MF".data)) = none := by
    apply findSub_eq_none_of
    exact not_prefix_append_all _ _ _ rfl h4
      (not_prefix_all_drops _ _ (by decide) (by decide))
  -- assemble the loop
  have hloop : flagArgLoop ((" -MF".data)) ((c1 :: t1') ++ (((" -MF ".data)) ++
      ((c2 :: t2') ++ ((" -c x".data))))) = (c2 :: t2') ++ ((" -c x".data)) := by
    rw [flagArgLoop_eq _ _ hnf, hD]
    show flagArgLoop ((" -MF".data)) (trimLeftSpace _) = _
    rw [htrim1]
    rw [flagArgLoop_eq _ _ hnf, hF]
  -- assemble the whole call
  have hB : findCommandLineFlag
      ((("gcc -MD -MF ".data)) ++
        ((c1 :: t1') ++ (((" -MF ".data)) ++ ((c2 :: t2') ++ ((" -c x".data))))))
      ((" -MF".data)) = some 7 := by
    unfold findCommandLineFlag
    rw [hA]
  unfold findCommandLineFlagWithArg
  rw [hB]
  show (flagArgLoop ((" -MF".data)) (trimLeftSpace
      (((("gcc -MD -MF ".data)) ++
        ((c1 :: t1') ++ (((" -MF ".data)) ++ ((c2 :: t2') ++ ((" -c x".data)))))).drop
          (7 + ((" -MF".data)).length)))).takeWhile (fun c => !(isWsTok c)) = (c2 :: t2')
  rw [htrim0, hloop]
  rw [takeWhile_append_of_all _ _ _ (fun c hc => by
    rw [h4 c hc]
    rfl)]
  rw [show ((" -c x".data)).takeWhile (fun c => !(isWsTok c)) = [] from by decide]
  exact List.append_nil _

/-- `GetDepfileFromCommandImpl` on the two-`-MF` command: the preconditions
hold and the reported depfile is the scan's token `t2`. -/
theorem impl_two_tokens (t1 t2 : List Char) (h1 : t1 ≠ []) (h2 : t2 ≠ [])
    (h3 : ∀ c ∈ t1, isWsTok c = false) (h4 : ∀ c ∈ t2, isWsTok c = false) :
    getDepfileFromCommandImpl
        ((("gcc -MD -MF ".data)) ++ (t1 ++ (((" -MF ".data)) ++ (t2 ++ ((" -c x".data)))))) =
      some t2 := by
  have hmf := flagArg_two_tokens t1 t2 h1 h2 h3 h4
  have hLlen : (("gcc -MD -MF ".data) : List Char).length = 12 := rfl
  have hMDlen : ((" -MD".data) : List Char).length = 4 := rfl
  have hMD : findCommandLineFlag
      ((("gcc -MD -MF ".data)) ++ (t1 ++ (((" -MF ".data)) ++ (t2 ++ ((" -c x".data))))))
      ((" -MD".data)) = some 3 := by
    have hfs : findSub
        ((("gcc -MD -MF ".data)) ++ (t1 ++ (((" -MF ".data)) ++ (t2 ++ ((" -c x".data))))))
        ((" -MD".data)) = some 3 := by
      apply findSub_eq_some_of
      · rw [List.drop_append_of_le_length (by decide)]
        exact (List.isPrefixOf_iff_prefix.mp (by decide :
          ((" -MD".data)).isPrefixOf ((("gcc -MD -MF ".data)).drop 3) = true)).trans
          (List.prefix_append _ _)
      · intro j hj hpre
        rw [List.drop_append_of_le_length (by omega)] at hpre
        have hsh := prefix_of_append_of_length_le _ _ _ hpre
          (by rw [List.length_drop, hLlen, hMDlen]; omega)
        have htab : ∀ j', j' < 3 →
            ((" -MD".data)).isPrefixOf ((("gcc -MD -MF ".data)).drop j') = false := by decide
        rw [← List.isPrefixOf_iff_prefix] at hsh
        rw [htab j hj] at hsh
        exact Bool.noConfusion hsh
    unfold findCommandLineFlag
    rw [hfs]
  have hex : ∃ k, ((" -c".data)) <+:
      ((("gcc -MD -MF ".data)) ++ (t1 ++ (((" -MF ".data)) ++ (t2 ++ ((" -c x".data)))))).drop k := by
    apply exists_prefix_drop_append
    apply exists_prefix_drop_append
    apply exists_prefix_drop_append
    apply exists_prefix_drop_append
    exact ⟨0, by
      rw [List.drop_zero]
      exact List.isPrefixOf_iff_prefix.mp (by decide)⟩
  have hc : findCommandLineFlag
      ((("gcc -MD -MF ".data)) ++ (t1 ++ (((" -MF ".data)) ++ (t2 ++ ((" -c x".data))))))
      ((" -c".data)) ≠ none := by
    unfold findCommandLineFlag
    cases hfs : findSub
        ((("gcc -MD -MF ".data)) ++ (t1 ++ (((" -MF ".data)) ++ (t2 ++ ((" -c x".data))))))
        ((" -c".data)) with
    | none =>
      obtain ⟨k, hk⟩ := hex
      exact absurd hk ( findSub_none_not_prefix _ _ hfs k)
    | some i =>
      cases i with
      | zero =>
        have hpre := findSub_some_prefix _ _ _ hfs
        rw [List.drop_zero] at hpre
        exact absurd hpre (prefix_head_ne _ _ ' ' 'g' rfl rfl (by decide))
      | succ n => simp
  unfold getDepfileFromCommandImpl
  rw [if_neg (fun hcond => by
    cases hcond with
    | inl hl =>
      obtain ⟨hl1, -⟩ := hl
      rw [hMD] at hl1
      exact Option.noConfusion hl1
    | inr hr => exact hc hr)]
  dsimp only
  rw [hmf, if_pos h2]

/-- Claim C5 counterexample: in `x -MF -MF a` the flag ` -MF` occurs (at
nonzero offsets 1 and 5); the token following the last occurrence is `a`,
but `FindCommandLineFlagWithArg` returns `-MF` — after the first match the
left-trim consumes the space that the second occurrence needs, so the
scan misses it. -/
theorem C5_counterexample :
    findCommandLineFlagWithArg (("x -MF -MF a".data)) ((" -MF".data)) = (("-MF".data)) ∧
    tokenAfterLastFlag (("x -MF -MF a".data)) ((" -MF".data)) = (("a".data)) ∧
    (("-MF".data) : List Char) ≠ (("a".data)) := by
  exact ⟨by decide, by decide, by decide⟩

/-- Claim C5 amended: the iterated scan resumes after each match with the
leading whitespace trimmed; whenever the repeated ` -MF` flags are
separated by whitespace-free argument tokens (the shape
`gcc -MD -MF <t1> -MF <t2> -c x`), this yields the argument of the
textually last occurrence, `GetDepfileFromCommandImpl` reports that token
as the depfile, and a match of a flag at offset 0 is always rejected.
(Adjacent repeated flags, as in the counterexample, can hide the last
occurrence from the scan.) -/
theorem C5_amended (t1 t2 : List Char) (h1 : t1 ≠ []) (h2 : t2 ≠ [])
    (h3 : ∀ c ∈ t1, isWsTok c = false) (h4 : ∀ c ∈ t2, isWsTok c = false) :
    findCommandLineFlagWithArg
        ((("gcc -MD -MF ".data)) ++ (t1 ++ (((" -MF ".data)) ++ (t2 ++ ((" -c x".data))))))
        ((" -MF".data)) = t2 ∧
    getDepfileFromCommandImpl
        ((("gcc -MD -MF ".data)) ++ (t1 ++ (((" -MF ".data)) ++ (t2 ++ ((" -c x".data)))))) =
      some t2 ∧
    (∀ (c name : List Char), findSub c name = some 0 → findCommandLineFlag c name = none) :=
  ⟨flagArg_two_tokens t1 t2 h1 h2 h3 h4, impl_two_tokens t1 t2 h1 h2 h3 h4,
    fun c name h => by
      unfold findCommandLineFlag
      rw [h]⟩

/-- Claim C5 witness: with `t1 = foo.d`, `t2 = bar.d` the scan returns the
last flag's argument `bar.d`. -/
theorem C5_witness :
    findCommandLineFlagWithArg
        ((("gcc -MD -MF ".data)) ++
          ((("foo.d".data)) ++ (((" -MF ".data)) ++ ((("bar.d".data)) ++ ((" -c x".data))))))
        ((" -MF".data)) = (("bar.d".data)) :=
  (C5_amended (("foo.d".data)) (("bar.d".data)) (by decide) (by decide)
    (by decide) (by decide)).1

/-- Claim C4 counterexample: on a command that triggers the `.P` quirk the
first call erases `; rm -f foo.d` and returns true with depfile `foo.d`;
re-invoking on the mutated command finds the `.P` pattern again but not the
(already erased) removal command, and dies in
`ERROR("Cannot find removal of .d file")` / `cmd->erase(npos, …)` instead
of returning true with the same depfile. -/
theorem C4_counterexample :
    getDepfileFromCommand (("gcc -MD -c -MF foo.d x foo.P; rm -f foo.d".data)) =
      .depfile (("gcc -MD -c -MF foo.d x foo.P".data)) (("foo.d".data)) ∧
    getDepfileFromCommand (("gcc -MD -c -MF foo.d x foo.P".data)) = .fatal := by
  exact ⟨by decide, by decide⟩

/-- Claim C4 amended: when the first call took the final mutation path
(appending `&& cp <d0> <d0>.tmp ` and reporting `<d0>.tmp`), and on the
mutated command the flag scan still reports the same base depfile and none
of the three Android quirks (llvm-rs-cc, `.P`, `.s`) triggers, the second
call returns true and reports the same depfile `<d0>.tmp` — `.tmp`
re-applied to the same base path. -/
theorem C4_amended (cmd cmd' d0 : List Char)
    (h1 : getDepfileFromCommand cmd = .depfile cmd' (d0 ++ ((".tmp".data))))
    (h2 : cmd' = cmd ++ (("&& cp ".data)) ++ d0 ++ [' '] ++ d0 ++ ((".tmp ".data)))
    (h3 : getDepfileFromCommandImpl cmd' = some d0)
    (h4 : containsSub cmd' (("bin/llvm-rs-cc ".data)) = false)
    (h5 : containsSub cmd' (stripExt d0 ++ ((".P".data))) = false)
    (h6 : containsSub cmd' ('/' :: (stripExt (basename d0) ++ ((".s".data)))) = false) :
    getDepfileFromCommand cmd' =
      .depfile (cmd' ++ (("&& cp ".data)) ++ d0 ++ [' '] ++ d0 ++ ((".tmp ".data)))
               (d0 ++ ((".tmp".data))) := by
  have hne : cmd' ≠ [] := by
    rw [h2]
    intro hnil
    have hlen := congrArg List.length hnil
    simp [List.length_append] at hlen
  unfold getDepfileFromCommand
  rw [if_neg hne, h3]
  dsimp only
  rw [if_neg (show ¬ containsSub cmd' (("bin/llvm-rs-cc ".data)) = true from by
    rw [h4]; exact Bool.false_ne_true)]
  rw [if_neg (show ¬ containsSub cmd' (stripExt d0 ++ ((".P".data))) = true from by
    rw [h5]; exact Bool.false_ne_true)]
  rw [if_neg (show ¬ containsSub cmd'
      ('/' :: (stripExt (basename d0) ++ ((".s".data)))) = true from by
    rw [h6]; exact Bool.false_ne_true)]

/-- Claim C4 witness: the second call on the concrete mutated command
`gcc -MD -c -MF foo.d x.c&& cp foo.d foo.d.tmp ` reports `foo.d.tmp`
again. -/
theorem C4_witness :
    getDepfileFromCommand (("gcc -MD -c -MF foo.d x.c&& cp foo.d foo.d.tmp ".data)) =
      .depfile ((("gcc -MD -c -MF foo.d x.c&& cp foo.d foo.d.tmp ".data)) ++
          (("&& cp ".data)) ++ (("foo.d".data)) ++ [' '] ++ (("foo.d".data)) ++ ((".tmp ".data)))
        ((("foo.d".data)) ++ ((".tmp".data))) :=
  C4_amended (("gcc -MD -c -MF foo.d x.c".data))
    (("gcc -MD -c -MF foo.d x.c&& cp foo.d foo.d.tmp ".data)) (("foo.d".data))
    (by decide) (by decide) (by decide) (by decide) (by decide) (by decide)

/-- A suffix containing no `/` lies entirely inside the part after a
`/`-terminated prefix. -/
theorem suffix_append_slash (a r X : List Char) (hrev : a.reverse.head? = some '/')
    (hX : ('/' : Char) ∉ X) : X <:+ a ++ r ↔ X <:+ r := by
  constructor
  · intro h
    have h' : X.reverse <+: r.reverse ++ a.reverse := by
      have hh := List.reverse_prefix.mpr h
      rwa [List.reverse_append] at hh
    by_cases hlen : X.reverse.length ≤ r.reverse.length
    · exact List.reverse_prefix.mp (prefix_of_append_of_length_le _ _ _ h' hlen)
    · exfalso
      obtain ⟨arest, ha⟩ : ∃ arest, a.reverse = '/' :: arest := by
        cases hh : a.reverse with
        | nil =>
          rw [hh] at hrev
          exact Option.noConfusion hrev
        | cons c t =>
          rw [hh] at hrev
          have hc : c = '/' := Option.some.inj hrev
          exact ⟨t, by rw [hc]⟩
      have hXr := List.prefix_iff_eq_take.mp h'
      rw [show X.reverse.length = r.reverse.length + (X.reverse.length - r.reverse.length)
        from by omega] at hXr
      rw [List.take_append] at hXr
      obtain ⟨m', hm'⟩ : ∃ m',
          X.reverse.length - r.reverse.length = m' + 1 :=
        ⟨X.reverse.length - r.reverse.length - 1, by omega⟩
      rw [hm', ha] at hXr
      have hmem : ('/' : Char) ∈ X.reverse := by
        rw [hXr]
        simp
      exact hX (List.mem_reverse.mp hmem)
  · intro h
    exact h.trans (List.suffix_append a r)

/-- Stripping a `/`-terminated prefix does not change any `/`-free suffix
test (bridges the code's suffix check on the stripped token with the
spec's check on the whole token). -/
theorem isSuffixOf_slash_drop (tok X pfx : List Char) (n : Nat) (hn : n = pfx.length)
    (hp : pfx <+: tok) (hrev : pfx.reverse.head? = some '/') (hX : ('/' : Char) ∉ X) :
    X.isSuffixOf (tok.drop n) = X.isSuffixOf tok := by
  subst hn
  obtain ⟨r, hr⟩ := hp
  rw [← hr, List.drop_left]
  exact Bool.coe_iff_coe.mp (by
    rw [List.isSuffixOf_iff_suffix, List.isSuffixOf_iff_suffix]
    exact (suffix_append_slash pfx r X hrev hX).symm)

theorem prefix_append_iff (a b l : List Char) :
    (a ++ b) <+: l ↔ a <+: l ∧ b <+: l.drop a.length := by
  constructor
  · intro h
    obtain ⟨s, hs⟩ := h
    constructor
    · exact ⟨b ++ s, by rw [← List.append_assoc]; exact hs⟩
    · refine ⟨s, ?_⟩
      rw [← hs, List.append_assoc, List.drop_left]
  · intro h
    obtain ⟨⟨s1, hs1⟩, ⟨s2, hs2⟩⟩ := h
    refine ⟨s2, ?_⟩
    rw [List.append_assoc, hs2]
    rw [show l.drop a.length = s1 from by rw [← hs1, List.drop_left]]
    exact hs1

theorem isPrefixOf_append_eq (a b l : List Char) :
    (a ++ b).isPrefixOf l = (a.isPrefixOf l && b.isPrefixOf (l.drop a.length)) := by
  apply Bool.coe_iff_coe.mp
  rw [Bool.and_eq_true, List.isPrefixOf_iff_prefix, List.isPrefixOf_iff_prefix,
    List.isPrefixOf_iff_prefix]
  exact prefix_append_iff a b l

/-- The code's recognizer (strip `prebuilts/` then `gcc/`/`clang/`, suffix
check on the stripped remainder) agrees with the spec's reading (full-token
prefix and suffix checks), for every token and remainder. -/
theorem gomaccAux_eq_spec : ∀ (f : Nat) (l : List Char), gomaccAux f l = gomaccSpecAux f l := by
  intro f
  induction f with
  | zero => intro l; rfl
  | succ f ih =>
    intro l
    unfold gomaccAux gomaccSpecAux
    cases hidx : l.findIdx? (fun c => c = ' ') with
    | none => rfl
    | some index =>
      dsimp only
      by_cases hcc : (("ccache".data)).isSuffixOf (l.take index) = true
      · rw [if_pos hcc, if_pos hcc, ← ih (l.drop (index + 1))]
        cases hrec : gomaccAux f (l.drop (index + 1)) with
        | none => rfl
        | some pos => rfl
      · rw [if_neg hcc, if_neg hcc]
        generalize l.take index = tok
        generalize l.drop index = rest
        have hsplitg : (("prebuilts/gcc/".data) : List Char) =
            (("prebuilts/".data)) ++ (("gcc/".data)) := by decide
        have hsplitc : (("prebuilts/clang/".data) : List Char) =
            (("prebuilts/".data)) ++ (("clang/".data)) := by decide
        have hfg : (("prebuilts/gcc/".data)).isPrefixOf tok =
            ((("prebuilts/".data)).isPrefixOf tok &&
              (("gcc/".data)).isPrefixOf (tok.drop ((("prebuilts/".data))).length)) := by
          rw [hsplitg, isPrefixOf_append_eq]
        have hfc : (("prebuilts/clang/".data)).isPrefixOf tok =
            ((("prebuilts/".data)).isPrefixOf tok &&
              (("clang/".data)).isPrefixOf (tok.drop ((("prebuilts/".data))).length)) := by
          rw [hsplitc, isPrefixOf_append_eq]
        by_cases hp10 : (("prebuilts/".data)).isPrefixOf tok = true
        · rw [if_pos hp10]
          by_cases hg : (("gcc/".data)).isPrefixOf
              (tok.drop ((("prebuilts/".data))).length) = true
          · rw [if_pos hg]
            dsimp only
            have hfullg : (("prebuilts/gcc/".data)).isPrefixOf tok = true := by
              rw [hfg, hp10, hg]
              rfl
            have hpfx : (("prebuilts/gcc/".data)) <+: tok :=
              List.isPrefixOf_iff_prefix.mp hfullg
            have e1 := isSuffixOf_slash_drop tok (("gcc".data)) (("prebuilts/gcc/".data))
              (((("prebuilts/".data))).length + ((("gcc/".data))).length) (by decide)
              hpfx (by decide) (by decide)
            have e2 := isSuffixOf_slash_drop tok (("g++".data)) (("prebuilts/gcc/".data))
              (((("prebuilts/".data))).length + ((("gcc/".data))).length) (by decide)
              hpfx (by decide) (by decide)
            have e3 := isSuffixOf_slash_drop tok (("clang".data)) (("prebuilts/gcc/".data))
              (((("prebuilts/".data))).length + ((("gcc/".data))).length) (by decide)
              hpfx (by decide) (by decide)
            have e4 := isSuffixOf_slash_drop tok (("clang++".data)) (("prebuilts/gcc/".data))
              (((("prebuilts/".data))).length + ((("gcc/".data))).length) (by decide)
              hpfx (by decide) (by decide)
            rw [List.drop_drop]
            rw [e1, e2, e3, e4]
            cases hs1 : (("gcc".data)).isSuffixOf tok <;>
              cases hs2 : (("g++".data)).isSuffixOf tok <;>
                cases hs3 : (("clang".data)).isSuffixOf tok <;>
                  cases hs4 : (("clang++".data)).isSuffixOf tok <;>
                    cases hC : containsSub rest ((" -c ".data)) <;>
                      simp [hfullg, hs1, hs2, hs3, hs4, hC]
          · by_cases hcl : (("clang/".data)).isPrefixOf
                (tok.drop ((("prebuilts/".data))).length) = true
            · rw [if_neg hg, if_pos hcl]
              dsimp only
              have hfullgf : (("prebuilts/gcc/".data)).isPrefixOf tok = false := by
                rw [hfg, hp10]
                cases hq : (("gcc/".data)).isPrefixOf
                    (tok.drop ((("prebuilts/".data))).length)
                · rfl
                · exact absurd hq hg
              have hfullc : (("prebuilts/clang/".data)).isPrefixOf tok = true := by
                rw [hfc, hp10, hcl]
                rfl
              have hpfx : (("prebuilts/clang/".data)) <+: tok :=
                List.isPrefixOf_iff_prefix.mp hfullc
              have e1 := isSuffixOf_slash_drop tok (("gcc".data)) (("prebuilts/clang/".data))
                (((("prebuilts/".data))).length + ((("clang/".data))).length) (by decide)
                hpfx (by decide) (by decide)
              have e2 := isSuffixOf_slash_drop tok (("g++".data)) (("prebuilts/clang/".data))
                (((("prebuilts/".data))).length + ((("clang/".data))).length) (by decide)
                hpfx (by decide) (by decide)
              have e3 := isSuffixOf_slash_drop tok (("clang".data)) (("prebuilts/clang/".data))
                (((("prebuilts/".data))).length + ((("clang/".data))).length) (by decide)
                hpfx (by decide) (by decide)
              have e4 := isSuffixOf_slash_drop tok (("clang++".data)) (("prebuilts/clang/".data))
                (((("prebuilts/".data))).length + ((("clang/".data))).length) (by decide)
                hpfx (by decide) (by decide)
              rw [List.drop_drop]
              rw [e1, e2, e3, e4]
              cases hs1 : (("gcc".data)).isSuffixOf tok <;>
                cases hs2 : (("g++".data)).isSuffixOf tok <;>
                  cases hs3 : (("clang".data)).isSuffixOf tok <;>
                    cases hs4 : (("clang++".data)).isSuffixOf tok <;>
                      cases hC : containsSub rest ((" -c ".data)) <;>
                        simp [hfullgf, hfullc, hs1, hs2, hs3, hs4, hC]
            · rw [if_neg hg, if_neg hcl]
              dsimp only
              rw [if_neg (fun hcond => by
                obtain ⟨hor, -, -⟩ := hcond
                cases hor with
                | inl h1 =>
                  rw [hfg, hp10, Bool.true_and] at h1
                  exact hg h1
                | inr h1 =>
                  rw [hfc, hp10, Bool.true_and] at h1
                  exact hcl h1)]
        · rw [if_neg hp10]
          rw [if_neg (fun hcond => by
            obtain ⟨hor, -, -⟩ := hcond
            cases hor with
            | inl h1 =>
              rw [hfg, Bool.and_eq_true] at h1
              exact hp10 h1.1
            | inr h1 =>
              rw [hfc, Bool.and_eq_true] at h1
              exact hp10 h1.1)]

/-- Any two sufficient fuels give `gomaccAux` the same result: each
recursive step consumes the first token and its following space, at least
one character. -/
theorem gomaccAux_congr :
    ∀ (f1 : Nat) (l : List Char), l.length < f1 → ∀ f2, l.length < f2 →
      gomaccAux f1 l = gomaccAux f2 l := by
  intro f1
  induction f1 with
  | zero => intro l h; omega
  | succ f1 ih =>
    intro l hl f2 hf2
    cases f2 with
    | zero => omega
    | succ f2 =>
      unfold gomaccAux
      cases hidx : l.findIdx? (fun c => c = ' ') with
      | none => rfl
      | some index =>
        dsimp only
        by_cases hcc : (("ccache".data)).isSuffixOf (l.take index) = true
        · rw [if_pos hcc, if_pos hcc]
          have hne : l ≠ [] := by
            intro h0
            subst h0
            exact Option.noConfusion hidx
          have hlen : (l.drop (index + 1)).length < f1 := by
            rw [List.length_drop]
            have : l.length ≥ 1 := by
              cases l with
              | nil => exact absurd rfl hne
              | cons a b => simp
            omega
          rw [ih (l.drop (index + 1)) hlen f2 (by
            rw [List.length_drop]
            have : l.length ≥ 1 := by
              cases l with
              | nil => exact absurd rfl hne
              | cons a b => simp
            omega)]
        · rw [if_neg hcc, if_neg hcc]

/-- Claim C8: `GetGomaccPosForAndroidCompileCommand` returns an offset iff
the spec's recognizer accepts — skip the chain of `ccache`-suffixed tokens
(each adding its consumed length), then require the token to start with
`prebuilts/gcc/` or `prebuilts/clang/`, end with one of `gcc`, `g++`,
`clang`, `clang++`, and ` -c ` to occur in the remainder starting at the
token's first following space — and the returned offset is the byte
position of the recognized compiler token.  (Concrete checks: the `ccache`
chain adds 7; a command without ` -c ` is rejected.) -/
theorem C8_gomacc_matches_spec :
    (∀ cmdline, getGomaccPosForAndroidCompileCommand cmdline = gomaccSpecOffset cmdline) ∧
    getGomaccPosForAndroidCompileCommand
      (("ccache prebuilts/clang/bin/clang++ -c foo.c".data)) = some 7 ∧
    getGomaccPosForAndroidCompileCommand (("prebuilts/gcc/x/gcc foo.c".data)) = none := by
  refine ⟨fun cmdline => gomaccAux_eq_spec (cmdline.length + 1) cmdline, by decide, by decide⟩

/-! #### Emission machinery lemmas (for C1, C2, C9, C10) -/

theorem remaining_mono (g : List DepNode) (d1 d2 : List (List Char))
    (h : ∀ x, x ∈ d1 → x ∈ d2) : remaining g d2 ≤ remaining g d1 := by
  unfold remaining
  apply List.Sublist.length_le
  apply List.monotone_filter_right
  intro a ha
  cases hc : d1.contains a
  · rfl
  · exfalso
    have h2 : a ∈ d2 := h a (List.elem_iff.mp hc)
    have h3 : d2.contains a = true := List.elem_iff.mpr h2
    rw [h3] at ha
    exact Bool.noConfusion ha

theorem remaining_insert_lt (g : List DepNode) (done : List (List Char)) (o : List Char)
    (ho : o ∈ g.map (fun n => n.output)) (hno : o ∉ done) :
    remaining g (o :: done) < remaining g done := by
  unfold remaining
  have hsplit : ((g.map (fun n => n.output)).dedup).filter
      (fun x => !((o :: done).contains x)) =
      (((g.map (fun n => n.output)).dedup).filter
        (fun x => !(done.contains x))).filter (fun x => !(x == o)) := by
    rw [List.filter_filter]
    apply List.filter_congr
    intro x hx
    show (!((o :: done).contains x)) = (!(x == o) && !(done.contains x))
    show (!(x == o || done.contains x)) = (!(x == o) && !(done.contains x))
    cases hxo : (x == o) <;> cases hxd : done.contains x <;> rfl
  rw [hsplit]
  apply List.length_filter_lt_length_iff_exists.mpr
  refine ⟨o, ?_, ?_⟩
  · rw [List.mem_filter]
    refine ⟨List.mem_dedup.mpr ho, ?_⟩
    cases hc : done.contains o
    · rfl
    · exact absurd (List.elem_iff.mp hc) hno
  · simp

theorem foldEmit_mono (f : Nat → EmitState → Option EmitState)
    (hf : ∀ i s s', f i s = some s' → ∀ x, x ∈ s.done → x ∈ s'.done) :
    ∀ (l : List Nat) (s s' : EmitState), foldEmit f l s = some s' →
      ∀ x, x ∈ s.done → x ∈ s'.done := by
  intro l
  induction l with
  | nil =>
    intro s s' h x hx
    have h' : some s = some s' := h
    obtain rfl := Option.some.inj h'
    exact hx
  | cons i is ih =>
    intro s s' h x hx
    unfold foldEmit at h
    cases hf1 : f i s with
    | none =>
      rw [hf1] at h
      exact Option.noConfusion h
    | some s1 =>
      rw [hf1] at h
      exact ih s1 s' h x (hf i s s1 hf1 x hx)

theorem foldEmit_pres (P : EmitState → Prop) (f : Nat → EmitState → Option EmitState)
    (hf : ∀ i s s', f i s = some s' → P s → P s') :
    ∀ (l : List Nat) (s s' : EmitState), foldEmit f l s = some s' → P s → P s' := by
  intro l
  induction l with
  | nil =>
    intro s s' h hp
    have h' : some s = some s' := h
    obtain rfl := Option.some.inj h'
    exact hp
  | cons i is ih =>
    intro s s' h hp
    unfold foldEmit at h
    cases hf1 : f i s with
    | none =>
      rw [hf1] at h
      exact Option.noConfusion h
    | some s1 =>
      rw [hf1] at h
      exact ih s1 s' h (hf i s s1 hf1 hp)

theorem foldEmit_isSome (g : List DepNode) (f : Nat → EmitState → Option EmitState) (F : Nat)
    (hmono : ∀ i s s', f i s = some s' → ∀ x, x ∈ s.done → x ∈ s'.done)
    (hsome : ∀ i s, remaining g s.done < F → (f i s).isSome = true) :
    ∀ (l : List Nat) (s : EmitState), remaining g s.done < F →
      (foldEmit f l s).isSome = true := by
  intro l
  induction l with
  | nil => intro s hrem; rfl
  | cons i is ih =>
    intro s hrem
    unfold foldEmit
    cases hf1 : f i s with
    | none =>
      have := hsome i s hrem
      rw [hf1] at this
      exact Bool.noConfusion this
    | some s1 =>
      have hle := remaining_mono g s.done s1.done (hmono i s s1 hf1)
      exact ih s1 (by omega)

theorem snLookup_none_iff :
    ∀ (sn : List (List Char × List Char)) (b : List Char),
      snLookup sn b = none ↔ b ∉ sn.map Prod.fst := by
  intro sn
  induction sn with
  | nil => intro b; simp [snLookup]
  | cons p t ih =>
    intro b
    unfold snLookup
    by_cases hp : p.1 = b
    · rw [if_pos hp]
      simp [hp]
    · rw [if_neg hp]
      rw [ih b]
      constructor
      · intro h hmem
        rcases List.mem_cons.mp hmem with h1 | h1
        · exact hp h1.symm
        · exact h h1
      · intro h hmem
        exact h (List.mem_cons_of_mem _ hmem)

theorem snLookup_append_single (b0 v0 : List Char) :
    ∀ (sn : List (List Char × List Char)) (b : List Char),
      snLookup (sn ++ [(b0, v0)]) b =
        match snLookup sn b with
        | some w => some w
        | none => if b0 = b then some v0 else none := by
  intro sn
  induction sn with
  | nil =>
    intro b
    show (if b0 = b then some v0 else snLookup [] b) = _
    rfl
  | cons p t ih =>
    intro b
    rw [List.cons_append]
    show (if p.1 = b then some p.2 else snLookup (t ++ [(b0, v0)]) b) = _
    by_cases hp : p.1 = b
    · rw [if_pos hp]
      show _ = (match (if p.1 = b then some p.2 else snLookup t b) with
        | some w => some w
        | none => if b0 = b then some v0 else none)
      rw [if_pos hp]
    · rw [if_neg hp]
      show _ = (match (if p.1 = b then some p.2 else snLookup t b) with
        | some w => some w
        | none => if b0 = b then some v0 else none)
      rw [if_neg hp]
      exact ih b

theorem snLookup_cons (p : List Char × List Char) (t : List (List Char × List Char))
    (b : List Char) :
    snLookup (p :: t) b = if p.1 = b then some p.2 else snLookup t b := rfl

theorem snLookup_map_collide (base : List Char) :
    ∀ (sn : List (List Char × List Char)) (b : List Char),
      snLookup (sn.map (fun p => if p.1 = base then (p.1, ([] : List Char)) else p)) b =
        if b = base then (snLookup sn b).map (fun _ => ([] : List Char))
        else snLookup sn b := by
  intro sn
  induction sn with
  | nil =>
    intro b
    by_cases hb : b = base <;> simp [snLookup, hb]
  | cons p t ih =>
    intro b
    have hkey : ((if p.1 = base then (p.1, ([] : List Char)) else p)).1 = p.1 := by
      split <;> rfl
    have hval : ((if p.1 = base then (p.1, ([] : List Char)) else p)).2 =
        (if p.1 = base then ([] : List Char) else p.2) := by
      split <;> rfl
    simp only [List.map_cons, snLookup_cons, hkey, hval]
    by_cases hpb : p.1 = b
    · rw [if_pos hpb, if_pos hpb]
      by_cases hb : b = base
      · have hpbase : p.1 = base := by rw [hpb, hb]
        rw [if_pos hpbase, if_pos hb]
        rfl
      · have hpbase : ¬(p.1 = base) := fun h => hb (by rw [← hpb, h])
        rw [if_neg hpbase, if_neg hb]
    · rw [if_neg hpb, if_neg hpb, ih b]

theorem snUpdate_keys (base o : List Char) (sn : List (List Char × List Char)) :
    (snUpdate base o sn).map Prod.fst =
      if snLookup sn base = none then sn.map Prod.fst ++ [base]
      else sn.map Prod.fst := by
  unfold snUpdate
  cases hl : snLookup sn base with
  | none =>
    simp
  | some w =>
    rw [if_neg (show ¬(some w = none) from fun h => Option.noConfusion h)]
    rw [List.map_map]
    apply List.map_congr_left
    intro p _
    by_cases hp : p.1 = base <;> simp [hp]

theorem emitStep_done (g : List DepNode) (n : DepNode) (s : EmitState) :
    (emitStep g n s).done = s.done := by
  unfold emitStep
  dsimp only
  split <;> split <;> rfl

theorem emitStep_emitted (g : List DepNode) (n : DepNode) (s : EmitState) :
    (emitStep g n s).emitted = s.emitted ++
      (if n.commands = [] then
        [.build n.output (("phony".data)) (depsOutputs g n.deps) (depsOutputs g n.orderOnlys)]
       else [.rule (genRuleName s.ruleId),
             .build n.output (genRuleName s.ruleId) (depsOutputs g n.deps)
               (depsOutputs g n.orderOnlys)]) := by
  unfold emitStep
  dsimp only
  by_cases hc : n.commands = [] <;> by_cases hb : basename n.output ≠ n.output <;>
    simp [hc, hb]

theorem emitStep_processed (g : List DepNode) (n : DepNode) (s : EmitState) :
    processed (emitStep g n s) = processed s ++ [n.output] := by
  unfold processed buildOutputs
  rw [emitStep_emitted, List.filterMap_append]
  congr 1
  split <;> rfl

theorem emitStep_emitted_sub (g : List DepNode) (n : DepNode) (s : EmitState) :
    ∀ e, e ∈ (emitStep g n s).emitted → e ∈ s.emitted ∨ isNodeStanza e = true := by
  intro e he
  rw [emitStep_emitted] at he
  rcases List.mem_append.mp he with h | h
  · exact Or.inl h
  · right
    split at h
    · have h1 := List.mem_singleton.mp h
      subst h1
      rfl
    · rcases List.mem_cons.mp h with h1 | h1
      · subst h1
        rfl
      · have h2 := List.mem_singleton.mp h1
        subst h2
        rfl

theorem emitStep_shortNames (g : List DepNode) (n : DepNode) (s : EmitState) :
    (emitStep g n s).shortNames =
      if basename n.output ≠ n.output
      then snUpdate (basename n.output) n.output s.shortNames
      else s.shortNames := by
  unfold emitStep
  dsimp only
  by_cases hb : basename n.output ≠ n.output
  · rw [if_pos hb, if_pos hb]
    split <;> rfl
  · rw [if_neg hb, if_neg hb]
    split <;> rfl

theorem nodup_snoc (l : List (List Char)) (a : List Char) (h1 : l.Nodup) (h2 : a ∉ l) :
    (l ++ [a]).Nodup := by
  simp [List.nodup_append, h1, h2]

theorem INV_cons_done (s : EmitState) (o : List Char) (h : INV s) :
    INV { s with done := o :: s.done } := by
  obtain ⟨h1, h2, h3, h4, h5, h6⟩ := h
  exact ⟨h1, fun x hx => List.mem_cons_of_mem _ (h2 x hx), h3, h4, h5, h6⟩

/-- The emission body preserves the invariant for a fresh node whose output
has just been inserted into `done_`. -/
theorem emitStep_inv (g : List DepNode) (n : DepNode) (t : EmitState)
    (hmem : n.output ∈ t.done) (hnp : n.output ∉ processed t) (hinv : INV t) :
    INV (emitStep g n t) := by
  obtain ⟨h1, h2, h3, h4, h5, h6⟩ := hinv
  have hproc := emitStep_processed g n t
  have hdone := emitStep_done g n t
  have hsn := emitStep_shortNames g n t
  refine ⟨?_, ?_, ?_, ?_, ?_, ?_⟩
  · rw [hproc]
    exact nodup_snoc _ _ h1 hnp
  · rw [hproc, hdone]
    intro x hx
    rcases List.mem_append.mp hx with h | h
    · exact h2 x h
    · rw [List.mem_singleton.mp h]
      exact hmem
  · intro e he
    rcases emitStep_emitted_sub g n t e he with h | h
    · exact h3 e h
    · exact h
  · rw [hsn]
    by_cases hb : basename n.output ≠ n.output
    · rw [if_pos hb, snUpdate_keys]
      split
      next hnone => exact nodup_snoc _ _ h4 ((snLookup_none_iff _ _).mp hnone)
      next => exact h4
    · rw [if_neg hb]
      exact h4
  · intro b v hlook
    rw [hsn] at hlook
    rw [hproc]
    by_cases hb : basename n.output ≠ n.output
    · rw [if_pos hb] at hlook
      unfold snUpdate at hlook
      cases hl : snLookup t.shortNames (basename n.output) with
      | none =>
        rw [hl] at hlook
        have hlook' : snLookup (t.shortNames ++ [(basename n.output, n.output)]) b =
            some v := hlook
        rw [snLookup_append_single] at hlook'
        cases hlb : snLookup t.shortNames b with
        | some w =>
          rw [hlb] at hlook'
          have hlook2 : some w = some v := hlook'
          have hwv : w = v := Option.some.inj hlook2
          subst hwv
          have hold := h5 b w hlb
          constructor
          · intro hvne
            obtain ⟨hin, hcon, huniq⟩ := hold.1 hvne
            refine ⟨List.mem_append_left _ hin, hcon, ?_⟩
            intro o ho hcono
            rcases List.mem_append.mp ho with h | h
            · exact huniq o h hcono
            · exfalso
              rw [List.mem_singleton.mp h] at hcono
              rw [hcono.1] at hl
              rw [hl] at hlb
              exact Option.noConfusion hlb
          · intro hveq
            obtain ⟨o1, o2, ho1, ho2, hne, hc1, hc2⟩ := hold.2 hveq
            exact ⟨o1, o2, List.mem_append_left _ ho1, List.mem_append_left _ ho2,
              hne, hc1, hc2⟩
        | none =>
          rw [hlb] at hlook'
          by_cases hbb : basename n.output = b
          · rw [if_pos hbb] at hlook'
            have hlook2 : some n.output = some v := hlook'
            obtain rfl := Option.some.inj hlook2
            constructor
            · intro _
              refine ⟨List.mem_append_right _ (List.mem_singleton_self _),
                ⟨hbb, fun hob => hb (by rw [hbb, ← hob])⟩, ?_⟩
              intro o ho hcono
              rcases List.mem_append.mp ho with h | h
              · exfalso
                have hbo : basename o ≠ o := fun hh => hcono.2 (by rw [← hcono.1, hh])
                have hx := h6 o h hbo
                rw [hcono.1] at hx
                exact hx hlb
              · exact List.mem_singleton.mp h
            · intro hveq
              exfalso
              apply hb
              rw [hveq]
              decide
          · rw [if_neg hbb] at hlook'
            exact Option.noConfusion hlook'
      | some w =>
        rw [hl] at hlook
        have hlook' : snLookup (t.shortNames.map
            (fun p => if p.1 = basename n.output then (p.1, ([] : List Char)) else p)) b =
            some v := hlook
        rw [snLookup_map_collide] at hlook'
        by_cases hbb : b = basename n.output
        · subst hbb
          rw [if_pos rfl, hl] at hlook'
          have hlook2 : some ([] : List Char) = some v := hlook'
          obtain rfl := Option.some.inj hlook2
          constructor
          · intro hvne
            exact absurd rfl hvne
          · intro _
            have hold := h5 (basename n.output) w hl
            by_cases hw : w = []
            · obtain ⟨o1, o2, ho1, ho2, hne, hc1, hc2⟩ := hold.2 hw
              exact ⟨o1, o2, List.mem_append_left _ ho1, List.mem_append_left _ ho2,
                hne, hc1, hc2⟩
            · obtain ⟨hin, hcon, -⟩ := hold.1 hw
              refine ⟨w, n.output, List.mem_append_left _ hin,
                List.mem_append_right _ (List.mem_singleton_self _),
                fun hwe => hnp (hwe ▸ hin), hcon, rfl, fun hh => hb hh.symm⟩
        · rw [if_neg hbb] at hlook'
          have hold := h5 b v hlook'
          constructor
          · intro hvne
            obtain ⟨hin, hcon, huniq⟩ := hold.1 hvne
            refine ⟨List.mem_append_left _ hin, hcon, ?_⟩
            intro o ho hcono
            rcases List.mem_append.mp ho with h | h
            · exact huniq o h hcono
            · exfalso
              rw [List.mem_singleton.mp h] at hcono
              exact hbb hcono.1.symm
          · intro hveq
            obtain ⟨o1, o2, ho1, ho2, hne, hc1, hc2⟩ := hold.2 hveq
            exact ⟨o1, o2, List.mem_append_left _ ho1, List.mem_append_left _ ho2,
              hne, hc1, hc2⟩
    · rw [if_neg hb] at hlook
      have hbe : basename n.output = n.output := not_not.mp hb
      have hold := h5 b v hlook
      constructor
      · intro hvne
        obtain ⟨hin, hcon, huniq⟩ := hold.1 hvne
        refine ⟨List.mem_append_left _ hin, hcon, ?_⟩
        intro o ho hcono
        rcases List.mem_append.mp ho with h | h
        · exact huniq o h hcono
        · exfalso
          rw [List.mem_singleton.mp h] at hcono
          have : n.output = b := by rw [← hbe]; exact hcono.1
          exact hcono.2 this
      · intro hveq
        obtain ⟨o1, o2, ho1, ho2, hne, hc1, hc2⟩ := hold.2 hveq
        exact ⟨o1, o2, List.mem_append_left _ ho1, List.mem_append_left _ ho2,
          hne, hc1, hc2⟩
  · rw [hproc, hsn]
    intro o ho hbo
    rcases List.mem_append.mp ho with h | h
    · have hnn := h6 o h hbo
      by_cases hb : basename n.output ≠ n.output
      · rw [if_pos hb]
        unfold snUpdate
        cases hl : snLookup t.shortNames (basename n.output) with
        | none =>
          show snLookup (t.shortNames ++ [(basename n.output, n.output)]) (basename o) ≠ none
          rw [snLookup_append_single]
          cases hlb : snLookup t.shortNames (basename o) with
          | some w => exact fun hc => Option.noConfusion hc
          | none => exact absurd hlb hnn
        | some w =>
          show snLookup (t.shortNames.map
            (fun p => if p.1 = basename n.output then (p.1, ([] : List Char)) else p))
            (basename o) ≠ none
          rw [snLookup_map_collide]
          by_cases hbb : basename o = basename n.output
          · rw [if_pos hbb, hbb, hl]
            exact fun hc => Option.noConfusion hc
          · rw [if_neg hbb]
            exact hnn
      · rw [if_neg hb]
        exact hnn
    · have ho' := List.mem_singleton.mp h
      subst ho'
      rw [if_pos hbo]
      unfold snUpdate
      cases hl : snLookup t.shortNames (basename n.output) with
      | none =>
        show snLookup (t.shortNames ++ [(basename n.output, n.output)])
          (basename n.output) ≠ none
        rw [snLookup_append_single, hl, if_pos rfl]
        exact fun hc => Option.noConfusion hc
      | some w =>
        show snLookup (t.shortNames.map
          (fun p => if p.1 = basename n.output then (p.1, ([] : List Char)) else p))
          (basename n.output) ≠ none
        rw [snLookup_map_collide, if_pos rfl, hl]
        exact fun hc => Option.noConfusion hc

/-- `EmitNode` only grows the `done_` set. -/
theorem emitNode_done_mono (g : List DepNode) :
    ∀ (fuel : Nat) (i : Nat) (s s' : EmitState), emitNode g fuel i s = some s' →
      ∀ x, x ∈ s.done → x ∈ s'.done := by
  intro fuel
  induction fuel with
  | zero => intro i s s' h; exact Option.noConfusion h
  | succ fuel ih =>
    intro i s s' h x hx
    unfold emitNode at h
    cases hg : g.get? i with
    | none =>
      rw [hg] at h
      have h' : some s = some s' := h
      obtain rfl := Option.some.inj h'
      exact hx
    | some n =>
      rw [hg] at h
      dsimp only at h
      split at h
      next hd =>
        obtain rfl := Option.some.inj h
        exact hx
      next hd =>
        split at h
        next hsup =>
          obtain rfl := Option.some.inj h
          exact List.mem_cons_of_mem _ hx
        next hsup =>
          cases hfold : foldEmit (emitNode g fuel) n.deps
              (emitStep g n { s with done := n.output :: s.done }) with
          | none =>
            rw [hfold] at h
            exact Option.noConfusion h
          | some s2 =>
            rw [hfold] at h
            have h2 : foldEmit (emitNode g fuel) n.orderOnlys s2 = some s' := h
            apply foldEmit_mono _ ih n.orderOnlys s2 s' h2
            apply foldEmit_mono _ ih n.deps _ s2 hfold
            rw [emitStep_done]
            exact List.mem_cons_of_mem _ hx

/-- Fuel `> remaining` suffices for `EmitNode`: the walk terminates because
the node's output enters `done_` before any recursion. -/
theorem emitNode_isSome (g : List DepNode) :
    ∀ (fuel : Nat) (i : Nat) (s : EmitState), remaining g s.done < fuel →
      (emitNode g fuel i s).isSome = true := by
  intro fuel
  induction fuel with
  | zero => intro i s h; exact absurd h (Nat.not_lt_zero _)
  | succ fuel ih =>
    intro i s hrem
    unfold emitNode
    cases hg : g.get? i with
    | none => rfl
    | some n =>
      dsimp only
      split
      next hd => rfl
      next hd =>
        have hmem : n.output ∈ g.map (fun m => m.output) :=
          List.mem_map_of_mem _ (List.get?_mem hg)
        have hno : n.output ∉ s.done := fun hm => hd (List.elem_iff.mpr hm)
        have hlt : remaining g (n.output :: s.done) < remaining g s.done :=
          remaining_insert_lt g s.done n.output hmem hno
        split
        next hsup => rfl
        next hsup =>
          have hfs : (foldEmit (emitNode g fuel) n.deps
              (emitStep g n { s with done := n.output :: s.done })).isSome = true := by
            apply foldEmit_isSome g (emitNode g fuel) fuel (emitNode_done_mono g fuel) ih
            rw [emitStep_done]
            show remaining g (n.output :: s.done) < fuel
            omega
          cases hfold : foldEmit (emitNode g fuel) n.deps
              (emitStep g n { s with done := n.output :: s.done }) with
          | none =>
            rw [hfold] at hfs
            exact Bool.noConfusion hfs
          | some s2 =>
            show (foldEmit (emitNode g fuel) n.orderOnlys s2).isSome = true
            apply foldEmit_isSome g (emitNode g fuel) fuel (emitNode_done_mono g fuel) ih
            have hsub : ∀ x, x ∈ (emitStep g n { s with done := n.output :: s.done }).done →
                x ∈ s2.done :=
              foldEmit_mono _ (emitNode_done_mono g fuel) n.deps _ s2 hfold
            have hle : remaining g s2.done ≤
                remaining g (emitStep g n { s with done := n.output :: s.done }).done :=
              remaining_mono g _ _ hsub
            rw [emitStep_done] at hle
            have hle2 : remaining g s2.done ≤ remaining g (n.output :: s.done) := hle
            show remaining g s2.done < fuel
            omega

/-- `EmitNode` preserves the emission invariant. -/
theorem emitNode_inv (g : List DepNode) :
    ∀ (fuel : Nat) (i : Nat) (s s' : EmitState), emitNode g fuel i s = some s' →
      INV s → INV s' := by
  intro fuel
  induction fuel with
  | zero => intro i s s' h; exact Option.noConfusion h
  | succ fuel ih =>
    intro i s s' h hinv
    unfold emitNode at h
    cases hg : g.get? i with
    | none =>
      rw [hg] at h
      have h' : some s = some s' := h
      obtain rfl := Option.some.inj h'
      exact hinv
    | some n =>
      rw [hg] at h
      dsimp only at h
      split at h
      next hd =>
        obtain rfl := Option.some.inj h
        exact hinv
      next hd =>
        split at h
        next hsup =>
          obtain rfl := Option.some.inj h
          exact INV_cons_done s n.output hinv
        next hsup =>
          have hno : n.output ∉ s.done := fun hm => hd (List.elem_iff.mpr hm)
          have hnp : n.output ∉ processed { s with done := n.output :: s.done } := by
            show n.output ∉ processed s
            intro hp
            exact hno (hinv.2.1 n.output hp)
          have hinv1 : INV { s with done := n.output :: s.done } :=
            INV_cons_done s n.output hinv
          have hinv2 : INV (emitStep g n { s with done := n.output :: s.done }) :=
            emitStep_inv g n _ (List.mem_cons_self _ _) hnp hinv1
          cases hfold : foldEmit (emitNode g fuel) n.deps
              (emitStep g n { s with done := n.output :: s.done }) with
          | none =>
            rw [hfold] at h
            exact Option.noConfusion h
          | some s2 =>
            rw [hfold] at h
            have h2 : foldEmit (emitNode g fuel) n.orderOnlys s2 = some s' := h
            have hinv3 : INV s2 :=
              foldEmit_pres INV (emitNode g fuel) ih n.deps _ s2 hfold hinv2
            exact foldEmit_pres INV (emitNode g fuel) ih n.orderOnlys s2 s' h2 hinv3

/-- The invariant holds at the initial state. -/
theorem INV_init : INV initState := by
  refine ⟨List.nodup_nil, ?_, ?_, List.nodup_nil, ?_, ?_⟩
  · intro o ho
    exact absurd ho (List.not_mem_nil o)
  · intro e he
    exact absurd he (List.not_mem_nil e)
  · intro b v hl
    exact Option.noConfusion hl
  · intro o ho
    exact absurd ho (List.not_mem_nil o)

/-- `remaining` never exceeds the graph size. -/
theorem remaining_le_length (g : List DepNode) (done : List (List Char)) :
    remaining g done ≤ g.length := by
  unfold remaining
  calc (((g.map (fun n => n.output)).dedup).filter
        (fun o => !(done.contains o))).length
      ≤ ((g.map (fun n => n.output)).dedup).length := List.length_filter_le _ _
    _ ≤ (g.map (fun n => n.output)).length := (List.dedup_sublist _).length_le
    _ = g.length := List.length_map _ _

/-- The full root walk with fuel `g.length + 1` always succeeds and yields
an invariant-satisfying state. -/
theorem rootWalk_some (g : List DepNode) (roots : List Nat) :
    ∃ s : EmitState, foldEmit (emitNode g (g.length + 1)) roots initState = some s ∧
      INV s := by
  have hrem : remaining g initState.done < g.length + 1 := by
    have := remaining_le_length g initState.done
    omega
  have hs : (foldEmit (emitNode g (g.length + 1)) roots initState).isSome = true :=
    foldEmit_isSome g (emitNode g (g.length + 1)) (g.length + 1)
      (emitNode_done_mono g _) (emitNode_isSome g _) roots initState hrem
  cases heq : foldEmit (emitNode g (g.length + 1)) roots initState with
  | none =>
    rw [heq] at hs
    exact Bool.noConfusion hs
  | some s =>
    exact ⟨s, rfl, foldEmit_pres INV (emitNode g (g.length + 1)) (emitNode_inv g _)
      roots initState s heq INV_init⟩

/-- Every line of `shortcutLines` is a shortcut stanza. -/
theorem shortcutLines_shape (s : EmitState) :
    ∀ e, e ∈ shortcutLines s → ∃ b v, e = NinjaLine.shortcut b v := by
  intro e he
  unfold shortcutLines at he
  rcases List.mem_filterMap.mp he with ⟨p, hp, hf⟩
  by_cases hc : p.2 ≠ [] ∧ !(s.done.contains p.1)
  · rw [if_pos hc] at hf
    exact ⟨p.1, p.2, (Option.some.inj hf).symm⟩
  · rw [if_neg hc] at hf
    exact Option.noConfusion hf

/-- With distinct keys, lookup success is entry membership. -/
theorem snLookup_mem :
    ∀ (sn : List (List Char × List Char)), (sn.map Prod.fst).Nodup →
      ∀ (b v : List Char), (snLookup sn b = some v ↔ (b, v) ∈ sn) := by
  intro sn
  induction sn with
  | nil =>
    intro _ b v
    constructor
    · intro h
      exact Option.noConfusion h
    · intro h
      exact absurd h (List.not_mem_nil _)
  | cons p t ih =>
    intro hnd b v
    have hnd' := List.nodup_cons.mp hnd
    rw [snLookup_cons]
    by_cases hp : p.1 = b
    · rw [if_pos hp]
      constructor
      · intro h
        have hv : p.2 = v := Option.some.inj h
        have hbv : (b, v) = p := by rw [← hp, ← hv]
        exact List.mem_cons.mpr (Or.inl hbv)
      · intro h
        rcases List.mem_cons.mp h with h1 | h1
        · rw [← h1]
        · exfalso
          apply hnd'.1
          rw [hp]
          exact List.mem_map_of_mem Prod.fst h1
    · rw [if_neg hp]
      rw [ih hnd'.2 b v]
      constructor
      · intro h
        exact List.mem_cons_of_mem _ h
      · intro h
        rcases List.mem_cons.mp h with h1 | h1
        · exfalso
          apply hp
          rw [← h1]
        · exact h1

/-- The `short_names_` characterization drawn from the invariant: a stored
value is a concrete output iff it is the unique processed contributor of
its basename; the empty sentinel marks at least two contributors. -/
theorem INV_shortNames_charact (s : EmitState) (hinv : INV s) :
    ∀ b v, snLookup s.shortNames b = some v →
      ((v ≠ []) ↔ ∃ o, o ∈ processed s ∧ contributesTo o b ∧
          ∀ x, x ∈ processed s → contributesTo x b → x = o) ∧
      (v = [] → ∃ o1 o2, o1 ∈ processed s ∧ o2 ∈ processed s ∧ o1 ≠ o2 ∧
          contributesTo o1 b ∧ contributesTo o2 b) := by
  intro b v hl
  have h5 := hinv.2.2.2.2.1 b v hl
  refine ⟨⟨?_, ?_⟩, h5.2⟩
  · intro hv
    obtain ⟨hin, hcon, huniq⟩ := h5.1 hv
    exact ⟨v, hin, hcon, huniq⟩
  · rintro ⟨o, ho, hcono, huniq⟩
    intro hveq
    obtain ⟨o1, o2, ho1, ho2, hne, hc1, hc2⟩ := h5.2 hveq
    exact hne ((huniq o1 ho1 hc1).trans (huniq o2 ho2 hc2).symm)

/-- Shortcut-stanza membership in the final line list: exactly the
`short_names_` entries with a non-empty value whose key is not in `done_`. -/
theorem shortcut_mem_iff (s : EmitState) (hinv : INV s) (pre : List NinjaLine)
    (hpre : ∀ e, e ∈ pre → ∀ b v, e ≠ NinjaLine.shortcut b v) :
    ∀ b v, (NinjaLine.shortcut b v ∈ pre ++ shortcutLines s ↔
      snLookup s.shortNames b = some v ∧ v ≠ [] ∧ ¬(s.done.contains b = true)) := by
  intro b v
  constructor
  · intro hm
    rcases List.mem_append.mp hm with h | h
    · exact absurd rfl (hpre _ h b v)
    · unfold shortcutLines at h
      rcases List.mem_filterMap.mp h with ⟨p, hp, hf⟩
      by_cases hc : p.2 ≠ [] ∧ !(s.done.contains p.1)
      · rw [if_pos hc] at hf
        have heq := Option.some.inj hf
        obtain ⟨hb1, hv1⟩ : p.1 = b ∧ p.2 = v := by
          rw [NinjaLine.shortcut.injEq] at heq
          exact heq
        refine ⟨?_, ?_, ?_⟩
        · rw [← hb1, ← hv1]
          exact (snLookup_mem s.shortNames hinv.2.2.2.1 p.1 p.2).mpr hp
        · rw [← hv1]
          exact hc.1
        · rw [← hb1]
          intro hct
          have hcc := hc.2
          rw [hct] at hcc
          exact Bool.noConfusion hcc
      · rw [if_neg hc] at hf
        exact Option.noConfusion hf
  · rintro ⟨hl, hv, hd⟩
    apply List.mem_append_right
    unfold shortcutLines
    apply List.mem_filterMap.mpr
    refine ⟨(b, v), (snLookup_mem s.shortNames hinv.2.2.2.1 b v).mp hl, ?_⟩
    have hdb : s.done.contains b = false := Bool.eq_false_iff.mpr hd
    show (if (b, v).2 ≠ [] ∧ (!(s.done.contains (b, v).1)) = true
      then some (NinjaLine.shortcut (b, v).1 (b, v).2) else none) =
      some (NinjaLine.shortcut b v)
    rw [if_pos (show (b, v).2 ≠ [] ∧ (!(s.done.contains (b, v).1)) = true from
      ⟨hv, by rw [hdb]; rfl⟩)]

/-- Doubling the `EscapeBuildTarget` specials never shortens the string. -/
theorem escape_flatMap_length_ge :
    ∀ (s : List Char), s.length ≤
      (s.flatMap (fun c => if c = '$' ∨ c = ':' ∨ c = ' ' then ['$', c] else [c])).length := by
  intro s
  induction s with
  | nil => exact Nat.le_refl 0
  | cons a t ih =>
    rw [List.flatMap_cons, List.length_append, List.length_cons]
    split
    next =>
      have h2 : (['$', a] : List Char).length = 2 := rfl
      omega
    next =>
      have h1 : ([a] : List Char).length = 1 := rfl
      omega

/-- A special character makes `EscapeBuildTarget`'s doubling pass strictly
longer than its input. -/
theorem escape_flatMap_length_lt :
    ∀ (s : List Char) (c : Char), c ∈ s → (c = '$' ∨ c = ':' ∨ c = ' ') →
      s.length <
        (s.flatMap (fun c => if c = '$' ∨ c = ':' ∨ c = ' ' then ['$', c] else [c])).length := by
  intro s
  induction s with
  | nil =>
    intro c hc _
    exact absurd hc (List.not_mem_nil c)
  | cons a t ih =>
    intro c hc hsp
    rw [List.flatMap_cons, List.length_append, List.length_cons]
    rcases List.mem_cons.mp hc with h1 | h1
    · subst h1
      rw [if_pos hsp]
      have h2 : (['$', c] : List Char).length = 2 := rfl
      have hge := escape_flatMap_length_ge t
      omega
    · have hlt := ih c h1 hsp
      have hge : 1 ≤ (if a = '$' ∨ a = ':' ∨ a = ' '
          then (['$', a] : List Char) else [a]).length := by
        split
        next =>
          have h2 : (['$', a] : List Char).length = 2 := rfl
          omega
        next =>
          have h1 : ([a] : List Char).length = 1 := rfl
          omega
      omega

/-- Claim C6 witness: a single ignore-error command `x` is not wrapped, and
the composed line `x ; true` ends with ` ; true`. -/
theorem C6_witness :
    (if (([] ++ [(⟨(("x".data)), false, true⟩ : Command)]).length > 1 &&
          !((((⟨(("x".data)), false, true⟩ : Command)).cmd.dropWhile isSpaceChar).head? = some '('))
     then (((" ; true)".data))).isSuffixOf (("x ; true".data))
     else (((" ; true".data))).isSuffixOf (("x ; true".data))) = true :=
  C6_amended ⟨false, none⟩ [] ⟨(("x".data)), false, true⟩ (("x ; true".data)) none false
    (by decide) rfl

/-- Claim C2: for every dependency graph — cycles and shared subgraphs
included, since `deps`/`orderOnlys` are arbitrary index lists — `EmitNode`
inserts the node's output into `done_` before recursing, so the walk from
any root list terminates within fuel `|g| + 1` and each distinct output is
emitted at most once (the build-stanza outputs are duplicate-free, and
every one of them is recorded in `done_`). -/
theorem C2_done_before_recursion (g : List DepNode) (roots : List Nat) :
    ∃ s : EmitState, foldEmit (emitNode g (g.length + 1)) roots initState = some s ∧
      (buildOutputs s.emitted).Nodup ∧
      (∀ o, o ∈ buildOutputs s.emitted → o ∈ s.done) := by
  obtain ⟨s, heq, hinv⟩ := rootWalk_some g roots
  exact ⟨s, heq, hinv.1, hinv.2.1⟩

/-- Claim C1, amended: with `build_all_targets` false and a non-empty node
list, `default <first-node-output>` is emitted AFTER all node stanzas but
BEFORE every shortcut stanza — ninja.cc:610-613 runs before the shortcut
loop at ninja.cc:615-619, not after it as the spec's §4.7 ordering says. -/
theorem C1_amended (g : List DepNode) (r : Nat) (rest : List Nat) (n : DepNode)
    (hg : g.get? r = some n) :
    ∃ (s : EmitState) (lines : List NinjaLine),
      generateNinja g (r :: rest) false = some (s, lines) ∧
      lines.get? s.emitted.length = some (NinjaLine.defaultTarget n.output) ∧
      (∀ j e, j < s.emitted.length → lines.get? j = some e → isNodeStanza e = true) ∧
      (∀ j e, s.emitted.length < j → lines.get? j = some e →
        ∃ b v, e = NinjaLine.shortcut b v) := by
  obtain ⟨s, heq, hinv⟩ := rootWalk_some g (r :: rest)
  refine ⟨s, s.emitted ++ [NinjaLine.defaultTarget n.output] ++ shortcutLines s,
    ?_, ?_, ?_, ?_⟩
  · unfold generateNinja
    rw [heq]
    show (match g.get? r with
      | none => none
      | some m => some (s, s.emitted ++ [NinjaLine.defaultTarget m.output] ++
          shortcutLines s)) =
      some (s, s.emitted ++ [NinjaLine.defaultTarget n.output] ++ shortcutLines s)
    rw [hg]
  · rw [List.append_assoc, List.get?_append_right (Nat.le_refl s.emitted.length),
      Nat.sub_self]
    rfl
  · intro j e hj hje
    rw [List.append_assoc, List.get?_append hj] at hje
    exact hinv.2.2.1 e (List.get?_mem hje)
  · intro j e hj hje
    have hlen : (s.emitted ++ [NinjaLine.defaultTarget n.output]).length ≤ j := by
      rw [List.length_append]
      have h1 : ([NinjaLine.defaultTarget n.output] : List NinjaLine).length = 1 := rfl
      omega
    rw [List.get?_append_right hlen] at hje
    exact shortcutLines_shape s e (List.get?_mem hje)

/-- Claim C1 amended witness: on the one-node graph `out`, the `default`
line sits exactly at index `|emitted|`, preceded only by node stanzas and
followed only by shortcut stanzas. -/
theorem C1_witness :
    ∃ (s : EmitState) (lines : List NinjaLine),
      generateNinja [(⟨(("out".data)), [], [], true, [], true⟩ : DepNode)] [0] false =
        some (s, lines) ∧
      lines.get? s.emitted.length = some (NinjaLine.defaultTarget (("out".data))) ∧
      (∀ j e, j < s.emitted.length → lines.get? j = some e → isNodeStanza e = true) ∧
      (∀ j e, s.emitted.length < j → lines.get? j = some e →
        ∃ b v, e = NinjaLine.shortcut b v) :=
  C1_amended [(⟨(("out".data)), [], [], true, [], true⟩ : DepNode)] 0 []
    ⟨(("out".data)), [], [], true, [], true⟩ rfl

/-- Claim C9: after emission, a `short_names_` value is a concrete output
iff that output is the unique emitted (non-suppressed) contributor of the
basename, and the empty sentinel marks at least two distinct contributors;
a shortcut stanza `build <basename>: phony <output>` appears in the file
exactly for the entries with a non-empty value whose basename is not
itself in `done_`. -/
theorem C9_short_names (g : List DepNode) (roots : List Nat) (ba : Bool)
    (s : EmitState) (lines : List NinjaLine)
    (h : generateNinja g roots ba = some (s, lines)) :
    (∀ b v, snLookup s.shortNames b = some v →
      ((v ≠ []) ↔ ∃ o, o ∈ processed s ∧ contributesTo o b ∧
          ∀ x, x ∈ processed s → contributesTo x b → x = o) ∧
      (v = [] → ∃ o1 o2, o1 ∈ processed s ∧ o2 ∈ processed s ∧ o1 ≠ o2 ∧
          contributesTo o1 b ∧ contributesTo o2 b)) ∧
    (∀ b v, NinjaLine.shortcut b v ∈ lines ↔
      snLookup s.shortNames b = some v ∧ v ≠ [] ∧ ¬(s.done.contains b = true)) := by
  have hdec : (∃ mid, lines = s.emitted ++ mid ++ shortcutLines s ∧
      (∀ e, e ∈ mid → ∀ b v, e ≠ NinjaLine.shortcut b v)) ∧ INV s := by
    unfold generateNinja at h
    cases heq : foldEmit (emitNode g (g.length + 1)) roots initState with
    | none =>
      rw [heq] at h
      exact Option.noConfusion h
    | some s0 =>
      rw [heq] at h
      have hinv0 : INV s0 :=
        foldEmit_pres INV _ (emitNode_inv g _) roots initState s0 heq INV_init
      cases ba with
      | true =>
        have h1 : some (s0, s0.emitted ++ shortcutLines s0) = some (s, lines) := h
        have hp := Option.some.inj h1
        have hs : s0 = s := congrArg Prod.fst hp
        subst hs
        have hl : s0.emitted ++ shortcutLines s0 = lines := congrArg Prod.snd hp
        refine ⟨⟨[], ?_, ?_⟩, hinv0⟩
        · rw [← hl, List.append_nil]
        · intro e he
          exact absurd he (List.not_mem_nil e)
      | false =>
        cases roots with
        | nil => exact Option.noConfusion h
        | cons r rest =>
          have h1 : (match g.get? r with
            | none => none
            | some n => some (s0, s0.emitted ++ [NinjaLine.defaultTarget n.output] ++
                shortcutLines s0)) = some (s, lines) := h
          cases hg : g.get? r with
          | none =>
            rw [hg] at h1
            exact Option.noConfusion h1
          | some n =>
            rw [hg] at h1
            have h2 : some (s0, s0.emitted ++ [NinjaLine.defaultTarget n.output] ++
                shortcutLines s0) = some (s, lines) := h1
            have hp := Option.some.inj h2
            have hs : s0 = s := congrArg Prod.fst hp
            subst hs
            have hl : s0.emitted ++ [NinjaLine.defaultTarget n.output] ++
                shortcutLines s0 = lines := congrArg Prod.snd hp
            refine ⟨⟨[NinjaLine.defaultTarget n.output], hl.symm, ?_⟩, hinv0⟩
            intro e he b v hev
            have he1 := List.mem_singleton.mp he
            rw [he1] at hev
            exact NinjaLine.noConfusion hev
  obtain ⟨⟨mid, hlines, hmid⟩, hinv⟩ := hdec
  refine ⟨INV_shortNames_charact s hinv, ?_⟩
  intro b v
  rw [hlines, List.append_assoc]
  rw [← List.append_assoc]
  apply shortcut_mem_iff s hinv (s.emitted ++ mid)
  intro e he b' v' hev
  rcases List.mem_append.mp he with h1 | h1
  · have hn := hinv.2.2.1 e h1
    rw [hev] at hn
    exact Bool.noConfusion hn
  · exact hmid e h1 b' v' hev

/-- Claim C9 witness: on the graph `a/foo`, `b/foo`, `a/bar`, the colliding
basename `foo` gets no shortcut while `bar` maps to `a/bar` and its phony
shortcut is in the file. -/
theorem C9_witness :
    NinjaLine.shortcut (("bar".data)) (("a/bar".data)) ∈
        [NinjaLine.build (("a/foo".data)) (("phony".data)) [] [],
         NinjaLine.build (("b/foo".data)) (("phony".data)) [] [],
         NinjaLine.build (("a/bar".data)) (("phony".data)) [] [],
         NinjaLine.shortcut (("bar".data)) (("a/bar".data))] ↔
      snLookup [((("foo".data)), ([] : List Char)), ((("bar".data)), (("a/bar".data)))]
          (("bar".data)) = some (("a/bar".data)) ∧
        (("a/bar".data)) ≠ [] ∧
        ¬([(("a/bar".data)), (("b/foo".data)), (("a/foo".data))].contains
            (("bar".data)) = true) :=
  (C9_short_names
    [(⟨(("a/foo".data)), [], [], true, [], true⟩ : DepNode),
     ⟨(("b/foo".data)), [], [], true, [], true⟩,
     ⟨(("a/bar".data)), [], [], true, [], true⟩]
    [0, 1, 2] true
    ⟨[(("a/bar".data)), (("b/foo".data)), (("a/foo".data))],
     [((("foo".data)), ([] : List Char)), ((("bar".data)), (("a/bar".data)))], 0,
     [NinjaLine.build (("a/foo".data)) (("phony".data)) [] [],
      NinjaLine.build (("b/foo".data)) (("phony".data)) [] [],
      NinjaLine.build (("a/bar".data)) (("phony".data)) [] []]⟩
    [NinjaLine.build (("a/foo".data)) (("phony".data)) [] [],
     NinjaLine.build (("b/foo".data)) (("phony".data)) [] [],
     NinjaLine.build (("a/bar".data)) (("phony".data)) [] [],
     NinjaLine.shortcut (("bar".data)) (("a/bar".data))]
    rfl).2 (("bar".data)) (("a/bar".data))

/-- Claim C10: the `default` line names the first node's raw output — the
`%s` print at ninja.cc:612 applies no escaping — so whenever that output
contains `$`, `:` or a space it differs from the `EscapeBuildTarget`-escaped
left-hand side of the node's own build stanza. -/
theorem C10_default_raw (g : List DepNode) (r : Nat) (rest : List Nat) (n : DepNode)
    (hg : g.get? r = some n) (c : Char) (hc : c ∈ n.output)
    (hsp : c = '$' ∨ c = ':' ∨ c = ' ') :
    ∃ (s : EmitState) (lines : List NinjaLine),
      generateNinja g (r :: rest) false = some (s, lines) ∧
      NinjaLine.defaultTarget n.output ∈ lines ∧
      renderLine (NinjaLine.defaultTarget n.output) =
        ('\n' :: ("default ".data)) ++ n.output ++ ['\n'] ∧
      n.output ≠ escapeBuildTarget n.output := by
  obtain ⟨s, heq, hinv⟩ := rootWalk_some g (r :: rest)
  refine ⟨s, s.emitted ++ [NinjaLine.defaultTarget n.output] ++ shortcutLines s,
    ?_, ?_, rfl, ?_⟩
  · unfold generateNinja
    rw [heq]
    show (match g.get? r with
      | none => none
      | some m => some (s, s.emitted ++ [NinjaLine.defaultTarget m.output] ++
          shortcutLines s)) =
      some (s, s.emitted ++ [NinjaLine.defaultTarget n.output] ++ shortcutLines s)
    rw [hg]
  · apply List.mem_append_left
    apply List.mem_append_right
    exact List.mem_singleton_self _
  · intro habs
    have hne : ¬(findFirstOf n.output (("$: ".data)) = none) := by
      intro h0
      have hall := (findFirstOf_eq_none_iff _ _).mp h0
      have hx := List.all_eq_true.mp hall c hc
      have hx' : (!((("$: ".data)).contains c)) = true := hx
      have hcin : (("$: ".data)).contains c = true := by
        rcases hsp with h | h | h <;> rw [h] <;> rfl
      rw [hcin] at hx'
      exact Bool.noConfusion hx'
    have hlen : n.output.length < (escapeBuildTarget n.output).length := by
      unfold escapeBuildTarget
      rw [if_neg hne]
      exact escape_flatMap_length_lt n.output c hc hsp
    rw [← habs] at hlen
    exact Nat.lt_irrefl _ hlen

/-- Claim C10 witness: for the single node `a:b`, the `default` target is
the raw `a:b` while the build stanza's escaped target is `a$:b`. -/
theorem C10_witness :
    ∃ (s : EmitState) (lines : List NinjaLine),
      generateNinja [(⟨(("a:b".data)), [], [], true, [], true⟩ : DepNode)] [0] false =
        some (s, lines) ∧
      NinjaLine.defaultTarget (("a:b".data)) ∈ lines ∧
      renderLine (NinjaLine.defaultTarget (("a:b".data))) =
        ('\n' :: ("default ".data)) ++ (("a:b".data)) ++ ['\n'] ∧
      (("a:b".data)) ≠ escapeBuildTarget (("a:b".data)) :=
  C10_default_raw [(⟨(("a:b".data)), [], [], true, [], true⟩ : DepNode)] 0 []
    ⟨(("a:b".data)), [], [], true, [], true⟩ rfl ':' (by decide) (by decide)

end Kati
